import Mathlib

/-!
Verification of the merged-tree builder, ref sorting, arrange rewrite pass,
secure-config protocol, bookmark advancement and the cached working-copy
store of a version-control engine, against its natural-language
specification.  Rust sources are shallowly embedded: pure functions become
Lean functions, filesystem and repository effects become explicit state
passing, fallible code returns `Except`/`Option`.
-/

set_option maxHeartbeats 1000000

namespace JJSpec

/-! ## Merge algebra

Modelled from the spec: `Merge<T>` (`merge.rs` is not among the provided
sources).  A merge is an odd-length interleaved sequence
`(a0, b1, a1, b2, ..., an)`; even indices are positive terms, odd indices
negative.  `num_sides` counts all terms.  -/

/-- Tree ids are opaque content-addressed identifiers; equality is by value. -/
abbrev TreeId := Nat

/-- Modelled from the spec: the odd-sided merge value `Merge<T>` of `merge.rs`,
stored as the interleaved term list `a0, b1, a1, ..., an`. -/
structure Merge (α : Type) where
  values : List α
deriving Repr, DecidableEq, Inhabited

/-- Modelled from the spec: `Merge::resolved(v)` is single-sided. -/
def Merge.resolved (v : α) : Merge α := ⟨[v]⟩

/-- Modelled from the spec: `num_sides()` is the (odd) number of terms. -/
def Merge.num_sides (m : Merge α) : Nat := m.values.length

/-- Number of terms appended by `pad_to`: whole `(negative, positive)` pairs
are appended until the side count reaches `n`. -/
def padLen (len n : Nat) : Nat := if n ≤ len then 0 else 2 * ((n - len + 1) / 2)

/-- Modelled from the spec: `pad_to(n, absent)` appends `(absent, absent)`
pairs until the merge has at least `n` sides. -/
def Merge.pad_to (m : Merge α) (n : Nat) (absent : α) : Merge α :=
  ⟨m.values ++ List.replicate (padLen m.values.length n) absent⟩

/-- Splits an interleaved term list into (positive terms, negative terms). -/
def altSplit : List α → List α × List α
  | [] => ([], [])
  | a :: rest => (a :: (altSplit rest).2, (altSplit rest).1)

/-- Rebuilds the interleaved term list from positive and negative terms. -/
def interleave : List α → List α → List α
  | [], ys => ys
  | x :: xs, [] => x :: xs
  | x :: xs, y :: ys => x :: y :: interleave xs ys

/-- One-at-a-time cancellation loop used by `simplify`: while some negative
term also occurs among the positive terms, remove one such pair. -/
def cancelPairs [DecidableEq α] : Nat → List α → List α → List α × List α
  | 0, pos, neg => (pos, neg)
  | Nat.succ fuel, pos, neg =>
    match neg.find? (fun b => pos.contains b) with
    | none => (pos, neg)
    | some b => cancelPairs fuel (pos.erase b) (neg.erase b)

/-- Modelled from the spec: `simplify()` removes matching positive/negative
pairs; a one-sided result is the resolved value. -/
def Merge.simplify [DecidableEq α] (m : Merge α) : Merge α :=
  let p := altSplit m.values
  let q := cancelPairs p.2.length p.1 p.2
  ⟨interleave q.1 q.2⟩

/-- Modelled from the spec: `into_resolved()` succeeds exactly when the merge
has one side after `simplify`; otherwise the original merge is returned. -/
def Merge.into_resolved [DecidableEq α] (m : Merge α) : Except (Merge α) α :=
  match m.simplify.values with
  | [v] => .ok v
  | _ => .error m

/-- Pointwise map, preserving the interleaved term order. -/
def Merge.map (f : α → β) (m : Merge α) : Merge β := ⟨m.values.map f⟩

/-- Positive (added) terms of a merge: the even-indexed terms. -/
def Merge.positives (m : Merge α) : List α := (altSplit m.values).1

/-! ## Merged trees and the merged-tree builder (`merged_tree_builder.rs`) -/

/-- Modelled from the spec: conflict labels attached to a conflicted tree
(`conflict_labels.rs` is not among the provided sources); either absent or
one human-readable label per side. -/
inductive ConflictLabels where
  | unlabeled
  | labeled (labels : List String)
deriving Repr, DecidableEq, Inhabited

/-- Modelled from the spec: `ConflictLabels::num_sides()` is `None` when
unlabeled, otherwise the number of labels. -/
def ConflictLabels.num_sides : ConflictLabels → Option Nat
  | .unlabeled => none
  | .labeled ls => some ls.length

/-- Modelled from the spec: a `MergedTree` (`merged_tree.rs` is not among the
provided sources) is an odd-sided merge of tree ids plus optional conflict
labels.  The backend store handle carried by the Rust value is passed
separately to the functions below. -/
structure MergedTree where
  treeIds : Merge TreeId
  labels : ConflictLabels
deriving Repr, DecidableEq, Inhabited

/-- Modelled from the spec: `MergedTree::resolved`. -/
def MergedTree.resolved (id : TreeId) : MergedTree := ⟨Merge.resolved id, .unlabeled⟩

/-- Modelled from the spec: `MergedTree::new`; the arity check that panics on
a label mismatch in Rust is established by the caller in `write_tree`. -/
def MergedTree.new (ids : Merge TreeId) (labels : ConflictLabels) : MergedTree :=
  ⟨ids, labels⟩

/-- `MergedTree::into_tree_ids`. -/
def MergedTree.into_tree_ids (t : MergedTree) : Merge TreeId := t.treeIds

/-- A `MergedTree` is resolved when its merge has a single side. -/
def MergedTree.is_resolved (t : MergedTree) : Bool := t.treeIds.num_sides == 1

/-- Repository paths; their internal structure is irrelevant here. -/
abbrev RepoPath := String

/-- File or tree entry values stored at a path; opaque, compared by value. -/
abbrev TreeValue := Nat

/-- `MergedTreeValue`: a merge of optional values, `none` being absent. -/
abbrev MergedTreeValue := Merge (Option TreeValue)

/-- Inserts or replaces the entry with the given key in an association list,
keeping the position of an existing key. -/
def upsert [DecidableEq κ] : List (κ × β) → κ → β → List (κ × β)
  | [], k, v => [(k, v)]
  | (k', v') :: rest, k, v =>
    if k' = k then (k, v) :: rest else (k', v') :: upsert rest k v

/-- Modelled from the spec: the ordinary single-tree builder
(`tree_builder.rs` is not among the provided sources); it records its base
tree id and the overrides applied so far, one entry per path.  The effect of
its `write_tree` is supplied by the `Store`. -/
structure TreeBuilder where
  base_tree_id : TreeId
  overrides : List (RepoPath × Option TreeValue)
deriving Repr, DecidableEq, Inhabited

/-- `TreeBuilder::new`. -/
def TreeBuilder.new (base_tree_id : TreeId) : TreeBuilder := ⟨base_tree_id, []⟩

/-- `TreeBuilder::set_or_remove`: `some` sets a value at the path, `none`
removes it. -/
def TreeBuilder.set_or_remove (b : TreeBuilder) (path : RepoPath)
    (value : Option TreeValue) : TreeBuilder :=
  ⟨b.base_tree_id, upsert b.overrides path value⟩

/-- Modelled from the spec: the pieces of the backend `Store` the builder
uses — the id of the empty tree, the effect of writing one tree builder
(a pure function of its base id and overrides; backend I/O failure is not
modelled), and path-level conflict resolution `MergedTree::resolve`, whose
outcome depends on the pluggable content merger. -/
structure Store where
  emptyTreeId : TreeId
  writeTree : TreeId → List (RepoPath × Option TreeValue) → TreeId
  resolveTree : MergedTree → MergedTree

/-- `MergedTreeBuilder` of `merged_tree_builder.rs`: a base tree plus
per-path overrides.  The `BTreeMap` is embedded as a key-ordered,
duplicate-free association list. -/
structure MergedTreeBuilder where
  base_tree : MergedTree
  overrides : List (RepoPath × MergedTreeValue)

/-- `MergedTreeBuilder::new`. -/
def MergedTreeBuilder.new (base_tree : MergedTree) : MergedTreeBuilder :=
  ⟨base_tree, []⟩

/-- The `num_sides` local of `write_merged_trees`: the maximum override
arity, `0` when there are no overrides (`.max().unwrap_or(0)`). -/
def MergedTreeBuilder.overrides_num_sides (self : MergedTreeBuilder) : Nat :=
  (self.overrides.map (fun pv => pv.2.num_sides)).foldl max 0

/-- The base tree ids after the `pad_to` step of `write_merged_trees`. -/
def MergedTreeBuilder.padded_base_tree_ids (store : Store)
    (self : MergedTreeBuilder) : Merge TreeId :=
  self.base_tree.into_tree_ids.pad_to self.overrides_num_sides store.emptyTreeId

/-- Rust's `zip` over two mutably iterated collections: the first
`min`-many elements are combined, the remaining elements of the first
collection are left unchanged. -/
def zipWithKeep (f : α → β → α) : List α → List β → List α
  | [], _ => []
  | x :: xs, [] => x :: xs
  | x :: xs, y :: ys => f x y :: zipWithKeep f xs ys

/-- The body of the override loop in `write_merged_trees`: a resolved
override is applied to every side's builder, a conflicted override is padded
and applied term by term. -/
def applyOverride (num_sides : Nat) (builders : Merge TreeBuilder)
    (pv : RepoPath × MergedTreeValue) : Merge TreeBuilder :=
  match pv.2.into_resolved with
  | .ok value => builders.map (fun b => b.set_or_remove pv.1 value)
  | .error values =>
    let padded := values.pad_to num_sides none
    ⟨zipWithKeep (fun b v => b.set_or_remove pv.1 v) builders.values padded.values⟩

/-- The per-side tree builders of `write_merged_trees` after every override
has been applied (the loop state just before the final write). -/
def MergedTreeBuilder.tree_builders (store : Store)
    (self : MergedTreeBuilder) : Merge TreeBuilder :=
  self.overrides.foldl (applyOverride self.overrides_num_sides)
    ((self.padded_base_tree_ids store).map TreeBuilder.new)

/-- `MergedTreeBuilder::write_merged_trees`: pad the base tree ids, create
one `TreeBuilder` per side, apply every override, and write each side. -/
def MergedTreeBuilder.write_merged_trees (store : Store)
    (self : MergedTreeBuilder) : Merge TreeId :=
  (self.tree_builders store).map (fun b => store.writeTree b.base_tree_id b.overrides)

/-- `MergedTreeBuilder::write_tree`: simplify the reassembled merge; a
single remaining side is returned as a resolved tree, otherwise the
conflicted tree — base labels kept only at unchanged arity — is handed to
path-level resolution. -/
def MergedTreeBuilder.write_tree (store : Store)
    (self : MergedTreeBuilder) : MergedTree :=
  let labels := self.base_tree.labels
  match (self.write_merged_trees store).simplify.into_resolved with
  | .ok single_tree_id => MergedTree.resolved single_tree_id
  | .error tree_ids =>
    let labels :=
      if labels.num_sides = some tree_ids.num_sides then labels
      else ConflictLabels.unlabeled
    store.resolveTree (MergedTree.new tree_ids labels)

/-- Decides whether a merged value is conflicted, i.e. `into_resolved`
returns `Err`. -/
def isConflicted (v : MergedTreeValue) : Bool :=
  match v.into_resolved with
  | .ok _ => false
  | .error _ => true

/-- The value that side `k` of an override contributes once the override is
padded to `n` sides: the resolved value broadcast, or the `k`-th padded
term. -/
def overrideSideValue (n : Nat) (v : MergedTreeValue) (k : Nat) : Option TreeValue :=
  match v.into_resolved with
  | .ok value => value
  | .error values => (values.pad_to n none).values.getD k none

/-- A concrete store for counterexamples: tree writes return the base id
and path-level resolution always fully succeeds (every content conflict
merges cleanly), which the spec permits. -/
def cexStore : Store :=
  { emptyTreeId := 0
    writeTree := fun base _ => base
    resolveTree := fun _ => MergedTree.resolved 99 }

/-- Counterexample input for the padding claim: a five-sided base tree and a
single three-sided conflicted override. -/
def cex1Builder : MergedTreeBuilder :=
  { base_tree := ⟨⟨[0, 1, 2, 3, 4]⟩, .unlabeled⟩
    overrides := [("p", ⟨[some 10, some 11, some 12]⟩)] }

/-- Counterexample input for the resolve claim: a three-sided base tree with
pairwise distinct sides and no overrides. -/
def cex7Builder : MergedTreeBuilder :=
  { base_tree := ⟨⟨[1, 2, 3]⟩, .unlabeled⟩
    overrides := [] }

/-! ## Commit-ref listing and sorting (`cli/src/commit_ref_list.rs`) -/

/-- Commit ids are opaque content-addressed identifiers. -/
abbrev CommitId := Nat

/-- Strings compared by the sort (ref names, remote names, author and
committer names and emails) are modelled as naturals: Rust compares them by
their bytes, a linear order, and only that order structure matters here. -/
abbrev SortStr := Nat

/-- The author/committer signature fields consulted by the sort keys; the
timestamp is milliseconds since epoch, compared as an integer. -/
structure Signature where
  name : SortStr
  email : SortStr
  timestamp : Int
deriving Repr, DecidableEq, Inhabited

/-- The `backend::Commit` fields consulted by the ref sort. -/
structure BackendCommit where
  author : Signature
  committer : Signature
deriving Repr, DecidableEq, Inhabited

/-- Modelled from the spec: `RefTarget` is an odd-sided merge of optional
commit ids (`op_store.rs` is not among the provided sources). -/
abbrev RefTarget := Merge (Option CommitId)

/-- Modelled from the spec: `RefTarget::normal`. -/
def RefTarget.normal (id : CommitId) : RefTarget := Merge.resolved (some id)

/-- Modelled from the spec: `RefTarget::absent`. -/
def RefTarget.absent : RefTarget := Merge.resolved none

/-- Modelled from the spec: `added_ids()` — the present positive terms. -/
def RefTarget.added_ids (t : RefTarget) : List CommitId :=
  t.positives.filterMap (fun v => v)

/-- Modelled from the spec: `as_normal()` — `some` exactly for a resolved,
present target. -/
def RefTarget.as_normal (t : RefTarget) : Option CommitId :=
  match t.values with
  | [some id] => some id
  | _ => none

/-- The `CommitRef` fields used by listing and sorting. -/
structure CommitRef where
  name : SortStr
  remote_name : Option SortStr
  target : RefTarget
deriving Repr, DecidableEq, Inhabited

/-- `RefListItem`: a local or untracked remote ref plus its tracked refs. -/
structure RefListItem where
  primary : CommitRef
  tracked : List CommitRef
deriving Repr, DecidableEq, Inhabited

/-- The `--sort` keys of `commit_ref_list.rs`. -/
inductive SortKey where
  | Name | NameDesc
  | AuthorName | AuthorNameDesc
  | AuthorEmail | AuthorEmailDesc
  | AuthorDate | AuthorDateDesc
  | CommitterName | CommitterNameDesc
  | CommitterEmail | CommitterEmailDesc
  | CommitterDate | CommitterDateDesc
deriving Repr, DecidableEq, Inhabited

/-- `SortKey::is_commit_dependant` (source spelling). -/
def SortKey.is_commit_dependant : SortKey → Bool
  | .Name | .NameDesc => false
  | _ => true

/-- Whether a key is one of the descending (`-`) variants. -/
def SortKey.is_descending : SortKey → Bool
  | .NameDesc | .AuthorNameDesc | .AuthorEmailDesc | .AuthorDateDesc
  | .CommitterNameDesc | .CommitterEmailDesc | .CommitterDateDesc => true
  | _ => false

/-- The `to_commit` closure of `sort_inner`: the commit of the first added
id of the primary target, when it is in the prefetched map. -/
def to_commit (commits : List (CommitId × BackendCommit)) (item : RefListItem) :
    Option BackendCommit :=
  (item.primary.target.added_ids).head?.bind (fun id => commits.lookup id)

/-- String ≤ (byte-lexicographic, modelled on `SortStr`) as a Boolean test. -/
def strLe (a b : SortStr) : Bool := decide (a ≤ b)

/-- String < (byte-lexicographic, modelled on `SortStr`) as a Boolean test. -/
def strLt (a b : SortStr) : Bool := decide (a < b)

/-- Integer ≤ as a Boolean test. -/
def intLe (a b : Int) : Bool := decide (a ≤ b)

/-- Rust's `Option` ordering as a ≤ test: `None` precedes every `Some`. -/
def optLeBy (le : κ → κ → Bool) : Option κ → Option κ → Bool
  | none, _ => true
  | some _, none => false
  | some a, some b => le a b

/-- The `(name, remote_name)` tuple key of the `Name` passes, as ≤. -/
def nameKeyLe (a b : RefListItem) : Bool :=
  if a.primary.name = b.primary.name then
    optLeBy strLe a.primary.remote_name b.primary.remote_name
  else strLt a.primary.name b.primary.name

/-- Flips a comparator, as `cmp::Reverse` flips an ordering. -/
def flipLe (le : α → α → Bool) : α → α → Bool := fun a b => le b a

/-- The commit attribute projected by a commit-dependent key; `none` when the
item's primary ref has no target commit. -/
def commitKey (f : BackendCommit → κ) (commits : List (CommitId × BackendCommit))
    (item : RefListItem) : Option κ :=
  (to_commit commits item).map f

/-- The ≤ test realised by `sort_by_key` for each sort key arm of
`sort_inner`. -/
def keyLe (commits : List (CommitId × BackendCommit)) : SortKey →
    RefListItem → RefListItem → Bool
  | .Name => nameKeyLe
  | .NameDesc => flipLe nameKeyLe
  | .AuthorName => fun a b =>
      optLeBy strLe (commitKey (fun c => c.author.name) commits a)
        (commitKey (fun c => c.author.name) commits b)
  | .AuthorNameDesc => flipLe (fun a b =>
      optLeBy strLe (commitKey (fun c => c.author.name) commits a)
        (commitKey (fun c => c.author.name) commits b))
  | .AuthorEmail => fun a b =>
      optLeBy strLe (commitKey (fun c => c.author.email) commits a)
        (commitKey (fun c => c.author.email) commits b)
  | .AuthorEmailDesc => flipLe (fun a b =>
      optLeBy strLe (commitKey (fun c => c.author.email) commits a)
        (commitKey (fun c => c.author.email) commits b))
  | .AuthorDate => fun a b =>
      optLeBy intLe (commitKey (fun c => c.author.timestamp) commits a)
        (commitKey (fun c => c.author.timestamp) commits b)
  | .AuthorDateDesc => flipLe (fun a b =>
      optLeBy intLe (commitKey (fun c => c.author.timestamp) commits a)
        (commitKey (fun c => c.author.timestamp) commits b))
  | .CommitterName => fun a b =>
      optLeBy strLe (commitKey (fun c => c.committer.name) commits a)
        (commitKey (fun c => c.committer.name) commits b)
  | .CommitterNameDesc => flipLe (fun a b =>
      optLeBy strLe (commitKey (fun c => c.committer.name) commits a)
        (commitKey (fun c => c.committer.name) commits b))
  | .CommitterEmail => fun a b =>
      optLeBy strLe (commitKey (fun c => c.committer.email) commits a)
        (commitKey (fun c => c.committer.email) commits b)
  | .CommitterEmailDesc => flipLe (fun a b =>
      optLeBy strLe (commitKey (fun c => c.committer.email) commits a)
        (commitKey (fun c => c.committer.email) commits b))
  | .CommitterDate => fun a b =>
      optLeBy intLe (commitKey (fun c => c.committer.timestamp) commits a)
        (commitKey (fun c => c.committer.timestamp) commits b)
  | .CommitterDateDesc => flipLe (fun a b =>
      optLeBy intLe (commitKey (fun c => c.committer.timestamp) commits a)
        (commitKey (fun c => c.committer.timestamp) commits b))

/-- Stable insertion: the new element goes after every element that is ≤ it,
matching the stability of Rust's `sort_by_key`. -/
def insertOrdered (le : α → α → Bool) (x : α) : List α → List α
  | [] => [x]
  | y :: l => if le y x then y :: insertOrdered le x l else x :: y :: l

/-- A stable sort (elements left to right, each inserted after its equals),
embedding Rust's stable `sort_by_key`. -/
def insertionSort (le : α → α → Bool) (l : List α) : List α :=
  l.foldl (fun acc x => insertOrdered le x acc) []

/-- `sort_inner`: one stable pass per key, iterating the keys in reverse and
skipping the leading run of `Name` keys of that reversed order (that is, the
trailing run of `Name` keys of the key list). -/
def sort_inner (items : List RefListItem) (sort_keys : List SortKey)
    (commits : List (CommitId × BackendCommit)) : List RefListItem :=
  (sort_keys.reverse.dropWhile (fun k => k == SortKey.Name)).foldl
    (fun acc key => insertionSort (keyLe commits key) acc) items

/-- The same passes without the trailing-`Name` skip, for comparison. -/
def sort_all_passes (items : List RefListItem) (sort_keys : List SortKey)
    (commits : List (CommitId × BackendCommit)) : List RefListItem :=
  sort_keys.reverse.foldl
    (fun acc key => insertionSort (keyLe commits key) acc) items

/-- The always-true comparator (every pair tied). -/
def trueLe : α → α → Bool := fun _ _ => true

/-- Lexicographic combination: compare by `le1`, break `le1`-ties by
`le2`. -/
def lexLe (le1 le2 : α → α → Bool) : α → α → Bool :=
  fun x y => le1 x y && (!le1 y x || le2 x y)

/-- The lexicographic comparator over a key list, first key most
significant. -/
def lexChain (commits : List (CommitId × BackendCommit)) :
    List SortKey → RefListItem → RefListItem → Bool
  | [] => trueLe
  | k :: rest => lexLe (keyLe commits k) (lexChain commits rest)

/-- The multi-pass sort as a recursion over the key list: the first key is
sorted last.  `sort_all_passes` folds the reversed key list and is equal to
this. -/
def multiPass (commits : List (CommitId × BackendCommit)) :
    List SortKey → List RefListItem → List RefListItem
  | [], items => items
  | k :: rest, items => insertionSort (keyLe commits k) (multiPass commits rest items)

/-- A comparator is total. -/
def TotalLe (le : α → α → Bool) : Prop := ∀ x y, le x y = true ∨ le y x = true

/-- A comparator is transitive. -/
def TransLe (le : α → α → Bool) : Prop :=
  ∀ x y z, le x y = true → le y z = true → le x z = true

/-- Items for the sorting counterexample: names `a` < `b`, author dates
`5` > `3`. -/
def cex4ItemA : RefListItem := ⟨⟨10, none, RefTarget.normal 1⟩, []⟩

/-- Second item of the sorting counterexample. -/
def cex4ItemB : RefListItem := ⟨⟨11, none, RefTarget.normal 2⟩, []⟩

/-- Prefetched commits for the sorting counterexample. -/
def cex4Commits : List (CommitId × BackendCommit) :=
  [(1, ⟨⟨0, 0, 5⟩, ⟨0, 0, 5⟩⟩), (2, ⟨⟨0, 0, 3⟩, ⟨0, 0, 3⟩⟩)]

/-- An item whose primary ref target is absent (deleted). -/
def wit8ItemAbsent : RefListItem := ⟨⟨20, none, RefTarget.absent⟩, []⟩

/-- An item whose primary ref resolves to commit `1`. -/
def wit8ItemPresent : RefListItem := ⟨⟨21, none, RefTarget.normal 1⟩, []⟩

/-! ## Interactive arrange (`cli/src/commands/arrange.rs`) -/

/-- Change ids are stable across rewrites; opaque, compared by value. -/
abbrev ChangeId := Nat

/-- The commit attributes used by the arrange rewrite pass: commit id,
parent ids, and the change id a rewrite preserves.  The tree remerge done
by `CommitRewriter::rebase` is not modelled; the claim concerns the commit
graph. -/
structure Commit where
  id : CommitId
  parent_ids : List CommitId
  change_id : ChangeId
deriving Repr, DecidableEq, Inhabited

/-- Modelled from the spec: the rewrite bookkeeping of `MutableRepo`
(`repo.rs` is not among the provided sources) used by `apply_changes` — the
old-to-new mapping recorded when commits are rewritten, plus a counter for
fresh commit ids. -/
structure MutRepo where
  mapping : List (CommitId × CommitId)
  next_id : CommitId
deriving Repr, DecidableEq, Inhabited

/-- Modelled from the spec: `MutableRepo::new_parents` translates each
parent through the rewrite map; an unrewritten parent stays itself. -/
def MutRepo.new_parents (repo : MutRepo) (ids : List CommitId) : List CommitId :=
  ids.map (fun p => ((repo.mapping.lookup p)).getD p)

/-- The arrange `State` fields used by `apply_changes` (`head_order` and
`current_order` only affect rendering).  The `HashMap`s are embedded as
association lists with distinct keys. -/
structure ArrangeState where
  commits : List (CommitId × Commit)
  parents : List (CommitId × List CommitId)
  external_children : List (CommitId × Commit)
deriving Repr, DecidableEq, Inhabited

/-- The in-set dependencies of the topological walk: the edited parents that
are themselves in `commits`. -/
def ArrangeState.inSetParents (self : ArrangeState) (id : CommitId) :
    List CommitId :=
  ((self.parents.lookup id).getD []).filter
    (fun p => (self.commits.lookup p).isSome)

/-- Modelled from the spec: `dag_walk::topo_order_forward` (`dag_walk.rs` is
not among the provided sources), as Kahn steps: repeatedly emit a pending id
whose in-set parents have all been emitted; `none` on a cycle (where the
Rust code panics). -/
def topoGo (deps : CommitId → List CommitId) :
    Nat → List CommitId → List CommitId → Option (List CommitId)
  | 0, done, pending => if pending.isEmpty then some done.reverse else none
  | Nat.succ fuel, done, pending =>
    if pending.isEmpty then some done.reverse
    else
      match pending.find? (fun id => (deps id).all (fun p => done.contains p)) with
      | none => none
      | some id => topoGo deps fuel (id :: done) (pending.erase id)

/-- Modelled from the spec: the forward topological order over `keys`. -/
def topo_order_forward (keys : List CommitId) (deps : CommitId → List CommitId) :
    Option (List CommitId) :=
  topoGo deps keys.length [] keys

/-- The per-commit loop of `apply_changes`: look the id up in `commits` or
`external_children`, translate its edited parents through the rewrite map,
and write a new commit exactly when the parents changed.  Returns `none`
where the Rust `unwrap` would panic. -/
def applyLoop (self : ArrangeState) :
    List CommitId → List (CommitId × Commit) → MutRepo →
      Option (List (CommitId × Commit) × MutRepo)
  | [], rewritten, repo => some (rewritten, repo)
  | id :: rest, rewritten, repo =>
    match (self.commits.lookup id).or (self.external_children.lookup id) with
    | none => none
    | some old_commit =>
      let new_parents := repo.new_parents ((self.parents.lookup id).getD [])
      if new_parents ≠ old_commit.parent_ids then
        applyLoop self rest
          (rewritten ++ [(id, ⟨repo.next_id, new_parents, old_commit.change_id⟩)])
          ⟨repo.mapping ++ [(id, repo.next_id)], repo.next_id + 1⟩
      else applyLoop self rest rewritten repo

/-- `State::apply_changes`: the loop above over a forward topological order
of the edited in-set parent relation. -/
def ArrangeState.apply_changes (self : ArrangeState) (mut_repo : MutRepo) :
    Option (List (CommitId × Commit) × MutRepo) :=
  (topo_order_forward (self.parents.map Prod.fst) self.inSetParents).bind
    (fun order => applyLoop self order [] mut_repo)

/-- An order is a forward topological order for the state: a permutation of
the edited keys in which every in-set parent precedes its child. -/
def IsForwardTopo (self : ArrangeState) (ord : List CommitId) : Prop :=
  ord.Perm (self.parents.map Prod.fst) ∧
  ∀ l1 x l2, ord = l1 ++ x :: l2 → ∀ p ∈ self.inSetParents x, p ∈ l1

/-- Structural invariants of an arrange state as built by `State::new`:
distinct keys, every edited key present in `commits` or
`external_children`, and every commit key carrying an edited parent list. -/
def ArrangeState.WF (self : ArrangeState) : Prop :=
  (self.parents.map Prod.fst).Nodup ∧
  (∀ id ∈ self.parents.map Prod.fst,
    ((self.commits.lookup id).or (self.external_children.lookup id)).isSome
      = true) ∧
  (∀ e ∈ self.commits, e.1 ∈ self.parents.map Prod.fst)

/-- The in-set parent relation is acyclic: some forward topological order
exists. -/
def ArrangeState.Acyclic (self : ArrangeState) : Prop :=
  ∃ ord, IsForwardTopo self ord

/-- Witness arrange state: in-set commits `1 ← 2`, external child `3` of
`2`; the edit detaches `2` from `1` and keeps `3` on `2`. -/
def wit2State : ArrangeState :=
  { commits := [(1, ⟨1, [], 100⟩), (2, ⟨2, [1], 101⟩)]
    parents := [(1, []), (2, []), (3, [2])]
    external_children := [(3, ⟨3, [2], 102⟩)] }

/-! ## Bookmark advance (`cli/src/commands/bookmark/advance.rs`) -/

/-- Bookmark names; opaque, compared by value. -/
abbrev BookmarkName := Nat

/-- Modelled from the spec: the commit ancestry a repo exposes, as a
commit-to-parents adjacency list. -/
structure RepoGraph where
  parents_of : List (CommitId × List CommitId)
deriving Repr, DecidableEq, Inhabited

/-- Fuel-bounded upward reachability: is `a` an ancestor of `c` (reflexive)? -/
def reachUp (g : RepoGraph) : Nat → CommitId → CommitId → Bool
  | 0, a, c => a == c
  | Nat.succ n, a, c =>
    a == c || ((g.parents_of.lookup c).getD []).any (fun p => reachUp g n a p)

/-- `a` is an ancestor of `c` (every chain of parents has length at most the
number of commits). -/
def RepoGraph.isAncestor (g : RepoGraph) (a c : CommitId) : Bool :=
  reachUp g g.parents_of.length a c

/-- Modelled from the spec: `is_fast_forward` — every positive-side commit
of the old target must be an ancestor of the new target (vacuous for an
absent target). -/
def is_fast_forward (g : RepoGraph) (old_target : RefTarget)
    (new_target_id : CommitId) : Bool :=
  (old_target.added_ids).all (fun id => g.isAncestor id new_target_id)

/-- The view fields touched by bookmark advance: the local bookmarks. -/
structure View where
  bookmarks : List (BookmarkName × RefTarget)
deriving Repr, DecidableEq, Inhabited

/-- `MutableRepo::set_local_bookmark_target`, on the local-bookmark map. -/
def View.set_local_bookmark_target (v : View) (name : BookmarkName)
    (t : RefTarget) : View :=
  ⟨upsert v.bookmarks name t⟩

/-- Observable outcome of `cmd_bookmark_advance`. -/
inductive AdvanceOutcome where
  | no_bookmarks
  | user_error (name : BookmarkName)
  | advanced (count : Nat)
deriving Repr, DecidableEq

/-- `cmd_bookmark_advance` from the candidate collection onwards: drop
no-op candidates already at the target, succeed silently when none remain,
abort with the first non-fast-forward name before opening a transaction,
and otherwise move every candidate and finish one transaction.  Returns the
final view, the number of operations appended, and the outcome.  Candidate
selection by revset and all terminal output are outside the model. -/
def cmd_bookmark_advance (g : RepoGraph) (view : View)
    (bookmarks : List (BookmarkName × RefTarget)) (target_commit : CommitId) :
    View × Nat × AdvanceOutcome :=
  let matched_bookmarks := bookmarks.filter
    (fun b => !(b.2.as_normal == some target_commit))
  if matched_bookmarks.isEmpty then
    (view, 0, AdvanceOutcome.no_bookmarks)
  else
    match matched_bookmarks.find?
        (fun b => !(is_fast_forward g b.2 target_commit)) with
    | some b => (view, 0, AdvanceOutcome.user_error b.1)
    | none =>
      (matched_bookmarks.foldl
        (fun v b => v.set_local_bookmark_target b.1 (RefTarget.normal target_commit))
        view,
       1, AdvanceOutcome.advanced matched_bookmarks.length)

/-- Witness graph for claim C5: `1 ← 10`; commit `20` is unrelated. -/
def wit5Graph : RepoGraph := ⟨[(10, [1]), (1, [])]⟩

/-- Witness view: bookmark `5` at commit `1`, bookmark `6` already at the
target `10`, bookmark `7` at the unrelated commit `20`. -/
def wit5View : View :=
  ⟨[(5, RefTarget.normal 1), (6, RefTarget.normal 10), (7, RefTarget.normal 20)]⟩

/-- Candidates for the successful advance: `5` (behind) and `6` (no-op). -/
def wit5BookmarksOk : List (BookmarkName × RefTarget) :=
  [(5, RefTarget.normal 1), (6, RefTarget.normal 10)]

/-- Candidates for the failing advance: `7` points sideways. -/
def wit5BookmarksBad : List (BookmarkName × RefTarget) :=
  [(5, RefTarget.normal 1), (7, RefTarget.normal 20)]

/-! ## Default working-copy store (`lib/src/default_working_copy_store.rs`) -/

/-- Filesystem paths as segment lists. -/
abbrev PathBuf := List String

/-- `Path::join` with a single segment. -/
def PathBuf.join (p : PathBuf) (seg : String) : PathBuf := p ++ [seg]

/-- The commit attribute the store keys slots by: `rev.tree_id().to_wc_name()`. -/
structure WcCommit where
  tree_name : String
deriving Repr, DecidableEq, Inhabited

/-- A stored working-copy slot.  The wrapped `TreeState` is backend I/O and
is not modelled; the slot is its three directories. -/
structure StoredWorkingCopy where
  output_path : PathBuf
  working_copy_path : PathBuf
  state_path : PathBuf
deriving Repr, DecidableEq, Inhabited

/-- The default working-copy store: the store root plus the managed slots. -/
structure DefaultWorkingCopyStore where
  stored_paths : PathBuf
  stored_working_copies : List StoredWorkingCopy
deriving Repr, DecidableEq, Inhabited

/-- `create_working_copy_paths`: the `output`, `working_copy` and `state`
subdirectories of a slot directory. -/
def create_working_copy_paths (path : PathBuf) : PathBuf × PathBuf × PathBuf :=
  (path.join "output", path.join "working_copy", path.join "state")

/-- `create_working_copies`: one slot directory per revision, named by its
tree, pushed onto the stored list; returns the updated store and (as the
source clones `self.stored_working_copies`) the whole stored list. -/
def DefaultWorkingCopyStore.create_working_copies
    (self : DefaultWorkingCopyStore) (revisions : List WcCommit) :
    DefaultWorkingCopyStore × List StoredWorkingCopy :=
  let store := revisions.foldl
    (fun (st : DefaultWorkingCopyStore) rev =>
      let path := st.stored_paths.join rev.tree_name
      let trip := create_working_copy_paths path
      { st with stored_working_copies :=
          st.stored_working_copies ++ [⟨trip.1, trip.2.1, trip.2.2⟩] })
    self
  (store, store.stored_working_copies)

/-- `get_or_create_working_copies`.  In the source, `new_ids` and the scan
over `stored_working_copies` have no effect (the loop's `res` is never
read, and the conditional's value is the literal `false`), so `needs_new`
reduces to whether the stored list is empty: a non-empty store returns its
stored slots unchanged, regardless of the requested commits. -/
def DefaultWorkingCopyStore.get_or_create_working_copies
    (self : DefaultWorkingCopyStore) (revisions : List WcCommit) :
    DefaultWorkingCopyStore × List StoredWorkingCopy :=
  let needs_new := if !self.stored_working_copies.isEmpty then false else true
  if !needs_new then (self, self.stored_working_copies)
  else self.create_working_copies revisions

/-- The store of the C9 counterexample: one slot, for tree `t1`. -/
def cex9Slot : StoredWorkingCopy :=
  ⟨["root", "t1", "output"], ["root", "t1", "working_copy"], ["root", "t1", "state"]⟩

/-- A store already holding the `t1` slot. -/
def cex9Store : DefaultWorkingCopyStore := ⟨["root"], [cex9Slot]⟩

/-- The C9 request: a single commit whose tree is `t2`, not materialized. -/
def cex9Request : List WcCommit := [⟨"t2"⟩]

/-! ## Secure config (`lib/src/secure_config.rs`)

The filesystem, the ChaCha20 id generator and the tempfile machinery are
the environment of the code; they are embedded as an explicit `Fs` state —
an association of canonical paths to file data plus a directory set —
threaded through the functions, and a stream of generated ids.  Path
aliasing (symlinks, bind mounts) is a canonicalization function carried by
the filesystem; a temp file persisted by `NamedTempFile::persist` leaves
only the final write; a dropped temp file leaves only the name counter. -/

/-- Association-list lookup keyed by decidable equality. -/
def assocLookup [DecidableEq κ] : List (κ × β) → κ → Option β
  | [], _ => none
  | (k', v) :: rest, k => if k' = k then some v else assocLookup rest k

/-- `ConfigMetadata` (protos): the recorded repo path, when encodable. -/
structure ConfigMetadata where
  path : Option PathBuf
deriving Repr, DecidableEq, Inhabited

/-- Contents of a file: text, or an encoded `ConfigMetadata` message. -/
inductive FileData where
  | text (content : String)
  | meta (m : ConfigMetadata)
deriving Repr, DecidableEq, Inhabited

/-- The filesystem state: aliasing as canonicalization, files keyed by
canonical path, existing directories, whether temp-file creation in the
repo succeeds (false for a read-only repo), and the next temp name. -/
structure Fs where
  canon : PathBuf → PathBuf
  files : List (PathBuf × FileData)
  dirs : List PathBuf
  tmp_ok : Bool
  next_tmp : Nat

/-- Why a read failed: the file is missing, or its bytes do not decode
(invalid UTF-8 for a string read, not a protobuf for a metadata read). -/
inductive ReadErr where
  | notFound
  | badData
deriving Repr, DecidableEq

def Fs.lookupFile (fs : Fs) (p : PathBuf) : Option FileData :=
  assocLookup fs.files (fs.canon p)

/-- `fs::read_to_string`. -/
def Fs.readString (fs : Fs) (p : PathBuf) : Except ReadErr String :=
  match fs.lookupFile p with
  | none => Except.error ReadErr.notFound
  | some (FileData.text s) => Except.ok s
  | some (FileData.meta _) => Except.error ReadErr.badData

/-- `fs::read` followed by `ConfigMetadata::decode`. -/
def Fs.readMeta (fs : Fs) (p : PathBuf) : Except ReadErr ConfigMetadata :=
  match fs.lookupFile p with
  | none => Except.error ReadErr.notFound
  | some (FileData.meta m) => Except.ok m
  | some (FileData.text _) => Except.error ReadErr.badData

/-- A plain or atomic write (the persisted temp file leaves only the final
content at the destination). -/
def Fs.writeFile (fs : Fs) (p : PathBuf) (d : FileData) : Fs :=
  { fs with files := upsert fs.files (fs.canon p) d }

def Fs.isDir (fs : Fs) (p : PathBuf) : Bool :=
  fs.dirs.contains (fs.canon p)

/-- `fs::create_dir_all` on an ancestry the model keeps flat. -/
def Fs.mkdirAll (fs : Fs) (p : PathBuf) : Fs :=
  if fs.dirs.contains (fs.canon p) then fs
  else { fs with dirs := fs.dirs ++ [fs.canon p] }

def CONFIG_FILE : String := "config.toml"
def METADATA_FILE : String := "metadata.binpb"
def CONFIG_ID_BYTES : Nat := 10
def CONFIG_NOT_FOUND : String :=
  "Per-repo config not found. Generating an empty one.\nPer-repo config is stored in the same directory as your user config for security reasons.\nIf you work across multiple computers, you may want to keep your user config directory in sync."

/-- The windows-bridge header of `CONTENT_PREFIX` (the `cfg(not(unix))`
legacy file; the unix build replaces the legacy file by a symlink). -/
def CONTENT_HEADER : String :=
  "# DO NOT EDIT.\n# This file is for old versions of jj.\n# It will be used for jj >= v0.37.\n# Use `jj config path` or `jj config edit` to find and edit the new file\n\n"

/-- The ChaCha20 generator as the stream of ids it will emit. -/
abbrev Rng := List String

/-- `generate_config_id`: the next hex id from the generator. -/
def generate_config_id (rng : Rng) : String × Rng :=
  (rng.headD "0123456789abcdef0123", rng.tail)

/-- Rust `String::len` — a byte count. -/
def rustLen (s : String) : Nat := s.utf8ByteSize

/-- `char::is_ascii_hexdigit`. -/
def isAsciiHexdigit (c : Char) : Bool :=
  (48 ≤ c.toNat && c.toNat ≤ 57) || (97 ≤ c.toNat && c.toNat ≤ 102)
    || (65 ≤ c.toNat && c.toNat ≤ 70)

/-- The config-id validity check of `maybe_load_config`: exactly
`CONFIG_ID_BYTES * 2` bytes, all ASCII hex digits. -/
def validConfigId (config_id : String) : Bool :=
  rustLen config_id == CONFIG_ID_BYTES * 2
    && config_id.toList.all isAsciiHexdigit

/-- `SecureConfig`: the repo directory, the two file names, and the
interior-mutable cache of the last load. -/
structure SecureConfig where
  repo_dir : PathBuf
  config_id_name : String
  legacy_config_name : String
  cache : Option (Option PathBuf × ConfigMetadata)
deriving Repr, DecidableEq, Inhabited

/-- Errors of `SecureConfigError` (`BadPathEncoding` does not arise: the
model treats every path as encodable). -/
inductive SecureConfigError where
  | pathError
  | decodeError
  | badConfigIdError
deriving Repr, DecidableEq

/-- `LoadedSecureConfig`. -/
structure LoadedSecureConfig where
  config_file : Option PathBuf
  metadata : ConfigMetadata
  warnings : List String
deriving Repr, DecidableEq, Inhabited

def pathDisplay (p : PathBuf) : String := String.intercalate "/" p

def copyWarning (got repo : PathBuf) : String :=
  "Your repo appears to have been copied from " ++ pathDisplay got ++ " to "
    ++ pathDisplay repo
    ++ ". The corresponding repo config file has also been copied."

def migrationWarning (legacy config_file : PathBuf) : String :=
  "Your config file has been migrated from " ++ pathDisplay legacy ++ " to "
    ++ pathDisplay config_file
    ++ ". You can edit the new file with `jj config edit`"

/-- `update_metadata`: atomically write the encoded metadata next to the
config file. -/
def update_metadata (fs : Fs) (config_dir : PathBuf) (metadata : ConfigMetadata) : Fs :=
  fs.writeFile (config_dir.join METADATA_FILE) (FileData.meta metadata)

/-- `SecureConfig::generate_config`: create the per-id directory, write the
metadata, optionally the config content, and atomically (re)write the
config-id file in the repo. -/
def SecureConfig.generate_config (self : SecureConfig) (root_config_dir : PathBuf)
    (config_id : String) (content : Option String) (metadata : ConfigMetadata)
    (fs : Fs) : Fs × PathBuf :=
  let config_dir := root_config_dir.join config_id
  let config_path := config_dir.join CONFIG_FILE
  let fs1 := fs.mkdirAll config_dir
  let fs2 := update_metadata fs1 config_dir metadata
  let fs3 := match content with
    | some c => fs2.writeFile config_path (FileData.text c)
    | none => fs2
  let fs4 := fs3.writeFile (self.repo_dir.join self.config_id_name)
    (FileData.text config_id)
  (fs4, config_path)

/-- `SecureConfig::generate_initial_config`. -/
def SecureConfig.generate_initial_config (self : SecureConfig)
    (root_config_dir : PathBuf) (config_id : String) (fs : Fs) :
    Fs × PathBuf × ConfigMetadata :=
  let metadata : ConfigMetadata := ⟨some self.repo_dir⟩
  let out := self.generate_config root_config_dir config_id none metadata fs
  (out.1, out.2, metadata)

/-- The temp name `NamedTempFile` would pick. -/
def tmpName (n : Nat) : String := ".tmp" ++ toString n

/-- `SecureConfig::handle_metadata_path`: reconcile the recorded repo path
with the current one — return unchanged on a match, rewrite the metadata
when the old path is gone (moved), probe with a temp file when the old
path is a directory and either share (aliased) or copy the config. -/
def SecureConfig.handle_metadata_path (self : SecureConfig) (rng : Rng)
    (root_config_dir config_dir : PathBuf) (metadata : ConfigMetadata)
    (fs : Fs) : Except SecureConfigError (LoadedSecureConfig × Fs × Rng) :=
  let got := metadata.path
  if got = some self.repo_dir then
    Except.ok (⟨some (config_dir.join CONFIG_FILE), metadata, []⟩, fs, rng)
  else
    match got with
    | some d =>
      if fs.isDir d then
        if fs.tmp_ok then
          let tname := tmpName fs.next_tmp
          let fsProbe : Fs := { fs with
            files := upsert fs.files (fs.canon (self.repo_dir.join tname))
              (FileData.text ""),
            next_tmp := fs.next_tmp + 1 }
          if (fsProbe.lookupFile (d.join tname)).isSome then
            Except.ok (⟨some (config_dir.join CONFIG_FILE), metadata, []⟩,
              { fs with next_tmp := fs.next_tmp + 1 }, rng)
          else
            match fs.readString (config_dir.join CONFIG_FILE) with
            | Except.error _ => Except.error SecureConfigError.pathError
            | Except.ok old_config_content =>
              let metadata' : ConfigMetadata := ⟨some self.repo_dir⟩
              let new_id := (generate_config_id rng).1
              let fs0 : Fs := { fs with next_tmp := fs.next_tmp + 1 }
              let out := self.generate_config root_config_dir new_id
                (some old_config_content) metadata' fs0
              Except.ok (⟨some out.2, metadata',
                [copyWarning d self.repo_dir]⟩, out.1, (generate_config_id rng).2)
        else
          Except.ok (⟨some (config_dir.join CONFIG_FILE), metadata, []⟩, fs, rng)
      else
        let metadata' : ConfigMetadata := ⟨some self.repo_dir⟩
        let fs' := update_metadata fs config_dir metadata'
        Except.ok (⟨some (config_dir.join CONFIG_FILE), metadata', []⟩, fs', rng)
    | none =>
      let metadata' : ConfigMetadata := ⟨some self.repo_dir⟩
      let fs' := update_metadata fs config_dir metadata'
      Except.ok (⟨some (config_dir.join CONFIG_FILE), metadata', []⟩, fs', rng)

/-- The `cfg(not(unix))` `update_legacy_config_file`: rewrite the legacy
file with the warning header plus the content (the unix build symlinks). -/
def SecureConfig.update_legacy_config_file (self : SecureConfig)
    (content : String) (fs : Fs) : Fs :=
  fs.writeFile (self.repo_dir.join self.legacy_config_name)
    (FileData.text (CONTENT_HEADER ++ content))

/-- `SecureConfig::maybe_migrate_legacy_config`. -/
def SecureConfig.maybe_migrate_legacy_config (self : SecureConfig) (rng : Rng)
    (root_config_dir : PathBuf) (fs : Fs) :
    Except SecureConfigError (LoadedSecureConfig × Fs × Rng) :=
  let legacy_config := self.repo_dir.join self.legacy_config_name
  match fs.readString legacy_config with
  | Except.error ReadErr.notFound => Except.ok (⟨none, ⟨none⟩, []⟩, fs, rng)
  | Except.error ReadErr.badData => Except.error SecureConfigError.pathError
  | Except.ok config =>
    let metadata : ConfigMetadata := ⟨some self.repo_dir⟩
    let new_id := (generate_config_id rng).1
    let out := self.generate_config root_config_dir new_id (some config) metadata fs
    let fs2 := self.update_legacy_config_file config out.1
    Except.ok (⟨some out.2, metadata,
      [migrationWarning legacy_config out.2]⟩, fs2, (generate_config_id rng).2)

/-- The cache-miss body of `maybe_load_config` (the `loaded` match of the
source): read and validate the config id, then dispatch on the metadata
file, falling back to initial generation or legacy migration. -/
def SecureConfig.maybe_load_config_uncached (self : SecureConfig) (rng : Rng)
    (root_config_dir : PathBuf) (fs : Fs) :
    Except SecureConfigError (LoadedSecureConfig × Fs × Rng) :=
  let config_id_path := self.repo_dir.join self.config_id_name
  match fs.readString config_id_path with
  | Except.ok config_id =>
    if !(validConfigId config_id) then
      Except.error SecureConfigError.badConfigIdError
    else
      let config_dir := root_config_dir.join config_id
      let metadata_path := config_dir.join METADATA_FILE
      match fs.readMeta metadata_path with
      | Except.ok m =>
        self.handle_metadata_path rng root_config_dir config_dir m fs
      | Except.error ReadErr.badData => Except.error SecureConfigError.decodeError
      | Except.error ReadErr.notFound =>
        let out := self.generate_initial_config root_config_dir config_id fs
        Except.ok (⟨some out.2.1, out.2.2, [CONFIG_NOT_FOUND]⟩, out.1, rng)
  | Except.error ReadErr.notFound =>
    self.maybe_migrate_legacy_config rng root_config_dir fs
  | Except.error ReadErr.badData => Except.error SecureConfigError.pathError

/-- `SecureConfig::maybe_load_config`: serve from the cache with no
warnings, or run the uncached body and fill the cache with the loaded
file and metadata. -/
def SecureConfig.maybe_load_config (self : SecureConfig) (rng : Rng)
    (root_config_dir : PathBuf) (fs : Fs) :
    Except SecureConfigError (LoadedSecureConfig × SecureConfig × Fs × Rng) :=
  match self.cache with
  | some cache => Except.ok (⟨cache.1, cache.2, []⟩, self, fs, rng)
  | none =>
    match self.maybe_load_config_uncached rng root_config_dir fs with
    | Except.error e => Except.error e
    | Except.ok (loaded, fs', rng') =>
      Except.ok (loaded,
        { self with cache := some (loaded.config_file, loaded.metadata) },
        fs', rng')

/-- `SecureConfig::load_config`: as `maybe_load_config`, generating an
initial config (and re-filling the cache) when no config file exists. -/
def SecureConfig.load_config (self : SecureConfig) (rng : Rng)
    (root_config_dir : PathBuf) (fs : Fs) :
    Except SecureConfigError (LoadedSecureConfig × SecureConfig × Fs × Rng) :=
  match self.maybe_load_config rng root_config_dir fs with
  | Except.error e => Except.error e
  | Except.ok (loaded, self', fs', rng') =>
    match loaded.config_file with
    | some _ => Except.ok (loaded, self', fs', rng')
    | none =>
      let new_id := (generate_config_id rng').1
      let out := self'.generate_initial_config root_config_dir new_id fs'
      Except.ok (⟨some out.2.1, out.2.2, loaded.warnings⟩,
        { self' with cache := some (some out.2.1, out.2.2) },
        out.1, (generate_config_id rng').2)

/-- Witness secure config: repo at `new/`, standard file names, no cache. -/
def wit3Config : SecureConfig := ⟨["new"], "config-id", "config.toml", none⟩

/-- Witness filesystem for the copied-repo case: the old per-id config
exists, the recorded old repo directory exists, no aliasing. -/
def wit3Fs : Fs :=
  { canon := fun p => p
    files := [(["cfg", "aabbccddeeff00112233", "config.toml"], FileData.text "conf")]
    dirs := [["old"]]
    tmp_ok := true
    next_tmp := 0 }

/-- Witness filesystem for the aliased case: `old/` and `new/` are the same
directory (a symlink), expressed by canonicalizing `old` to `new`. -/
def wit3FsAliased : Fs :=
  { canon := fun p => p.map (fun s => if s = "old" then "new" else s)
    files := [(["cfg", "aabbccddeeff00112233", "config.toml"], FileData.text "conf")]
    dirs := [["new"]]
    tmp_ok := true
    next_tmp := 0 }

/-- Witness filesystem for claim C6: the config-id file holds `xyz`. -/
def wit6Fs : Fs :=
  { canon := fun p => p
    files := [(["new", "config-id"], FileData.text "xyz")]
    dirs := []
    tmp_ok := true
    next_tmp := 0 }

/-- Witness filesystem with no config-id file and no legacy config. -/
def wit6FsEmpty : Fs :=
  { canon := fun p => p
    files := []
    dirs := []
    tmp_ok := true
    next_tmp := 0 }

/-- Witness filesystem for claim C10: a legacy `config.toml` in the repo,
no config-id file, so the first load migrates and warns. -/
def wit10Fs : Fs :=
  { canon := fun p => p
    files := [(["new", "config.toml"], FileData.text "legacy")]
    dirs := []
    tmp_ok := true
    next_tmp := 0 }

/-- The first load's result on `wit10Fs`: the migrated config file, the
recorded repo path, and one migration warning. -/
def wit10Loaded : LoadedSecureConfig :=
  ⟨some ["cfg", "aa112233445566778899", "config.toml"], ⟨some ["new"]⟩,
    [migrationWarning ["new", "config.toml"]
      ["cfg", "aa112233445566778899", "config.toml"]]⟩

/-- The instance after the first load: the cache holds the file and
metadata. -/
def wit10Cached : SecureConfig :=
  { wit3Config with
    cache := some (some ["cfg", "aa112233445566778899", "config.toml"],
      ⟨some ["new"]⟩) }

/-! # Theorems -/

/-! Basic lemmas about the merge algebra. -/

theorem altSplit_lengths (l : List α) :
    (altSplit l).1.length = (l.length + 1) / 2 ∧ (altSplit l).2.length = l.length / 2 := by
  induction l with
  | nil => simp [altSplit]
  | cons a rest ih =>
    obtain ⟨h1, h2⟩ := ih
    simp only [altSplit, List.length_cons]
    refine ⟨?_, ?_⟩ <;> omega

theorem interleave_nil_right (xs : List α) : interleave xs [] = xs := by
  cases xs with
  | nil => simp [interleave]
  | cons x t => simp [interleave]

theorem altSplit_interleave (n : Nat) :
    ∀ (xs ys : List α), xs.length + ys.length = n →
      ys.length ≤ xs.length → xs.length ≤ ys.length + 1 →
      altSplit (interleave xs ys) = (xs, ys) := by
  induction n using Nat.strong_induction_on with
  | _ n ih =>
    intro xs ys hn h1 h2
    cases xs with
    | nil =>
      have : ys = [] := by
        cases ys with
        | nil => rfl
        | cons y t => simp at h1
      subst this
      simp [interleave, altSplit]
    | cons x xt =>
      cases ys with
      | nil =>
        have : xt = [] := by
          cases xt with
          | nil => rfl
          | cons z t => simp at h2
        subst this
        simp [interleave, altSplit]
      | cons y yt =>
        simp only [List.length_cons] at hn h1 h2
        rcases n with _ | _ | m
        · omega
        · omega
        · have hrec : altSplit (interleave xt yt) = (xt, yt) :=
            ih m (by omega) xt yt (by omega) (by omega) (by omega)
          simp only [interleave, altSplit, hrec]

theorem cancelPairs_lengths [DecidableEq α] (fuel : Nat) :
    ∀ (pos neg : List α), pos.length = neg.length + 1 →
      (cancelPairs fuel pos neg).1.length = (cancelPairs fuel pos neg).2.length + 1 := by
  induction fuel with
  | zero => intro pos neg h; simpa [cancelPairs] using h
  | succ fuel ih =>
    intro pos neg h
    simp only [cancelPairs]
    cases hf : neg.find? (fun b => pos.contains b) with
    | none => simpa using h
    | some b =>
      have hbneg : b ∈ neg := List.mem_of_find?_eq_some hf
      have hbpos : b ∈ pos := by
        have := List.find?_some hf
        simpa using this
      have e1 := List.length_erase_of_mem hbpos
      have e2 := List.length_erase_of_mem hbneg
      have e3 := List.length_pos_of_mem hbneg
      apply ih
      omega

theorem cancelPairs_disjoint [DecidableEq α] (fuel : Nat) :
    ∀ (pos neg : List α), neg.length ≤ fuel →
      ∀ b ∈ (cancelPairs fuel pos neg).2, b ∉ (cancelPairs fuel pos neg).1 := by
  induction fuel with
  | zero =>
    intro pos neg hle b hb
    have : neg = [] := List.length_eq_zero.mp (Nat.le_zero.mp hle)
    subst this
    simp [cancelPairs] at hb
  | succ fuel ih =>
    intro pos neg hle b hb
    simp only [cancelPairs] at hb ⊢
    cases hf : neg.find? (fun c => pos.contains c) with
    | none =>
      simp only [hf] at hb ⊢
      intro hbpos
      have := List.find?_eq_none.mp hf b hb
      simp [hbpos] at this
    | some c =>
      simp only [hf] at hb ⊢
      have hcneg : c ∈ neg := List.mem_of_find?_eq_some hf
      have : (neg.erase c).length ≤ fuel := by
        rw [List.length_erase_of_mem hcneg]; omega
      exact ih (pos.erase c) (neg.erase c) this b hb

theorem cancelPairs_of_disjoint [DecidableEq α] (fuel : Nat) (pos neg : List α)
    (h : ∀ b ∈ neg, b ∉ pos) : cancelPairs fuel pos neg = (pos, neg) := by
  cases fuel with
  | zero => rfl
  | succ fuel =>
    simp only [cancelPairs]
    cases hf : neg.find? (fun b => pos.contains b) with
    | none => rfl
    | some b =>
      have hbneg : b ∈ neg := List.mem_of_find?_eq_some hf
      have hb := List.find?_some hf
      have hbpos : b ∈ pos := by simpa using hb
      exact absurd hbpos (h b hbneg)

theorem Merge.simplify_eq [DecidableEq α] (m : Merge α) :
    m.simplify =
      ⟨interleave
        (cancelPairs (altSplit m.values).2.length (altSplit m.values).1
          (altSplit m.values).2).1
        (cancelPairs (altSplit m.values).2.length (altSplit m.values).1
          (altSplit m.values).2).2⟩ :=
  rfl

/-- `simplify` is idempotent on odd-length merges: after one round of
cancellation no positive/negative pair is left to cancel. -/
theorem Merge.simplify_idempotent [DecidableEq α] (m : Merge α)
    (h : m.values.length % 2 = 1) : m.simplify.simplify = m.simplify := by
  obtain ⟨h1, h2⟩ := altSplit_lengths (l := m.values)
  have hlen : (altSplit m.values).1.length = (altSplit m.values).2.length + 1 := by omega
  have hq := cancelPairs_lengths (altSplit m.values).2.length _ _ hlen
  have hdisj := cancelPairs_disjoint (altSplit m.values).2.length (altSplit m.values).1
      (altSplit m.values).2 (Nat.le_refl _)
  rw [Merge.simplify_eq m]
  set q1 := (cancelPairs (altSplit m.values).2.length (altSplit m.values).1
      (altSplit m.values).2).1 with hq1
  set q2 := (cancelPairs (altSplit m.values).2.length (altSplit m.values).1
      (altSplit m.values).2).2 with hq2
  have hsplit : altSplit (interleave q1 q2) = (q1, q2) :=
    altSplit_interleave (q1.length + q2.length) q1 q2 rfl (by omega) (by omega)
  rw [Merge.simplify_eq ⟨interleave q1 q2⟩]
  simp only [hsplit]
  rw [cancelPairs_of_disjoint _ _ _ hdisj]

theorem foldl_max_init_le (l : List Nat) (a : Nat) : a ≤ l.foldl max a := by
  induction l generalizing a with
  | nil => simp
  | cons x t ih => exact le_trans (Nat.le_max_left a x) (ih (max a x))

theorem foldl_max_le_of_mem (l : List Nat) (a x : Nat) (hx : x ∈ l) :
    x ≤ l.foldl max a := by
  induction l generalizing a with
  | nil => simp at hx
  | cons y t ih =>
    rcases List.mem_cons.mp hx with h | h
    · subst h
      exact le_trans (Nat.le_max_right a x) (foldl_max_init_le t _)
    · exact ih _ h

theorem foldl_max_eq_or_mem (l : List Nat) (a : Nat) :
    l.foldl max a = a ∨ l.foldl max a ∈ l := by
  induction l generalizing a with
  | nil => left; rfl
  | cons x t ih =>
    simp only [List.foldl_cons]
    rcases ih (max a x) with h | h
    · rw [h]
      rcases max_choice a x with h2 | h2
      · left; exact h2
      · right; rw [h2]; exact List.mem_cons_self x t
    · right; exact List.mem_cons_of_mem x h

theorem padLen_eq (len n : Nat) (hl : len % 2 = 1) (hn : n % 2 = 1 ∨ n = 0) :
    padLen len n = max len n - len := by
  simp only [padLen]
  split <;> omega

/-- The maximum override arity is odd or zero when every override is odd. -/
theorem overrides_num_sides_parity (self : MergedTreeBuilder)
    (hovodd : ∀ pv ∈ self.overrides, pv.2.num_sides % 2 = 1) :
    self.overrides_num_sides % 2 = 1 ∨ self.overrides_num_sides = 0 := by
  rcases foldl_max_eq_or_mem (self.overrides.map (fun pv => pv.2.num_sides)) 0 with h | h
  · right; exact h
  · left
    obtain ⟨pv, hpv, hpv2⟩ := List.mem_map.mp h
    rw [MergedTreeBuilder.overrides_num_sides, ← hpv2]
    exact hovodd pv hpv

theorem padded_base_values (store : Store) (self : MergedTreeBuilder)
    (hodd : self.base_tree.treeIds.values.length % 2 = 1)
    (hovodd : ∀ pv ∈ self.overrides, pv.2.num_sides % 2 = 1) :
    (self.padded_base_tree_ids store).values =
      self.base_tree.treeIds.values ++
        List.replicate
          (max self.base_tree.treeIds.num_sides self.overrides_num_sides
            - self.base_tree.treeIds.num_sides) store.emptyTreeId := by
  have hns := overrides_num_sides_parity self hovodd
  show self.base_tree.treeIds.values ++
      List.replicate (padLen self.base_tree.treeIds.values.length
        self.overrides_num_sides) store.emptyTreeId = _
  rw [padLen_eq _ _ hodd hns]
  rfl

theorem padded_base_length (store : Store) (self : MergedTreeBuilder)
    (hodd : self.base_tree.treeIds.values.length % 2 = 1)
    (hovodd : ∀ pv ∈ self.overrides, pv.2.num_sides % 2 = 1) :
    (self.padded_base_tree_ids store).values.length =
      max self.base_tree.treeIds.num_sides self.overrides_num_sides := by
  rw [padded_base_values store self hodd hovodd]
  simp only [List.length_append, List.length_replicate, Merge.num_sides]
  omega

theorem getD_eq_getElem?_getD (l : List α) (k : Nat) (d : α) :
    l.getD k d = (l[k]?).getD d := by
  induction l generalizing k with
  | nil => cases k <;> simp
  | cons x t ih => cases k with
    | zero => simp
    | succ k => simp [ih k]

theorem zipWithKeep_getElem? (f : α → β → α) :
    ∀ (xs : List α) (ys : List β), xs.length = ys.length → ∀ (k : Nat),
      (zipWithKeep f xs ys)[k]? =
        Option.bind xs[k]? (fun x => Option.map (fun y => f x y) ys[k]?) := by
  intro xs
  induction xs with
  | nil =>
    intro ys h k
    have : ys = [] := List.length_eq_zero.mp h.symm
    subst this
    simp [zipWithKeep]
  | cons x xt ih =>
    intro ys h k
    cases ys with
    | nil => simp at h
    | cons y yt =>
      cases k with
      | zero => simp [zipWithKeep]
      | succ k =>
        simp only [zipWithKeep, List.getElem?_cons_succ]
        exact ih yt (by simpa using h) k

theorem upsert_of_not_mem [DecidableEq κ] (l : List (κ × β)) (k : κ) (v : β)
    (h : k ∉ l.map Prod.fst) : upsert l k v = l ++ [(k, v)] := by
  induction l with
  | nil => rfl
  | cons e rest ih =>
    obtain ⟨k', v'⟩ := e
    simp only [List.map_cons, List.mem_cons] at h
    push_neg at h
    obtain ⟨h1, h2⟩ := h
    simp only [upsert]
    rw [if_neg (fun he => h1 he.symm)]
    rw [ih h2]
    simp

theorem foldl_set_or_remove (g : RepoPath × MergedTreeValue → Option TreeValue) :
    ∀ (ovs : List (RepoPath × MergedTreeValue)) (id : TreeId)
      (acc : List (RepoPath × Option TreeValue)),
      (ovs.map Prod.fst).Nodup →
      (∀ p ∈ ovs.map Prod.fst, p ∉ acc.map Prod.fst) →
      ovs.foldl (fun (b : TreeBuilder) pv => b.set_or_remove pv.1 (g pv))
          (⟨id, acc⟩ : TreeBuilder) =
        ⟨id, acc ++ ovs.map (fun pv => (pv.1, g pv))⟩ := by
  intro ovs
  induction ovs with
  | nil => intro id acc _ _; simp
  | cons pv rest ih =>
    intro id acc hnd hfresh
    simp only [List.foldl_cons]
    simp only [List.map_cons, List.nodup_cons] at hnd
    have h1 : pv.1 ∉ acc.map Prod.fst := hfresh pv.1 (by simp)
    have hstep : (⟨id, acc⟩ : TreeBuilder).set_or_remove pv.1 (g pv) =
        ⟨id, acc ++ [(pv.1, g pv)]⟩ := by
      simp [TreeBuilder.set_or_remove, upsert_of_not_mem _ _ _ h1]
    rw [hstep]
    have hfresh' : ∀ p ∈ rest.map Prod.fst,
        p ∉ (acc ++ [(pv.1, g pv)]).map Prod.fst := by
      intro p hp
      have hne : p ≠ pv.1 := fun he => hnd.1 (he ▸ hp)
      have hna : p ∉ acc.map Prod.fst := hfresh p (by simp [hp])
      simp only [List.map_append, List.mem_append, List.map_cons, List.map_nil,
        List.mem_singleton]
      push_neg
      exact ⟨hna, hne⟩
    rw [ih id (acc ++ [(pv.1, g pv)]) hnd.2 hfresh']
    simp

theorem zipWithKeep_length_of_eq (f : α → β → α) :
    ∀ (xs : List α) (ys : List β), xs.length = ys.length →
      (zipWithKeep f xs ys).length = xs.length := by
  intro xs
  induction xs with
  | nil => intro ys _; rfl
  | cons x xt ih =>
    intro ys h
    cases ys with
    | nil => simp at h
    | cons y yt =>
      simp only [zipWithKeep, List.length_cons]
      rw [ih yt (by simpa using h)]

theorem getElem?_eq_some_getD (l : List α) (k : Nat) (d : α) (hk : k < l.length) :
    l[k]? = some (l.getD k d) := by
  rw [getD_eq_getElem?_getD, List.getElem?_eq_getElem hk]
  rfl

theorem applyOverride_length (nsides : Nat) (builders : Merge TreeBuilder)
    (pv : RepoPath × MergedTreeValue)
    (hpad : isConflicted pv.2 = true →
      (pv.2.pad_to nsides none).values.length = builders.values.length) :
    (applyOverride nsides builders pv).values.length = builders.values.length := by
  cases hres : pv.2.into_resolved with
  | ok value => simp [applyOverride, hres, Merge.map]
  | error values =>
    have hlenp := hpad (by simp [isConflicted, hres])
    simp only [applyOverride, hres]
    have : values = pv.2 := by
      unfold Merge.into_resolved at hres
      split at hres
      · cases hres
      · cases hres; rfl
    rw [this] at *
    exact zipWithKeep_length_of_eq _ _ _ hlenp.symm

theorem applyOverride_getElem (nsides : Nat) (builders : Merge TreeBuilder)
    (pv : RepoPath × MergedTreeValue)
    (hpad : isConflicted pv.2 = true →
      (pv.2.pad_to nsides none).values.length = builders.values.length)
    (k : Nat) :
    (applyOverride nsides builders pv).values[k]? =
      Option.map (fun b => b.set_or_remove pv.1 (overrideSideValue nsides pv.2 k))
        builders.values[k]? := by
  cases hres : pv.2.into_resolved with
  | ok value =>
    simp [applyOverride, hres, Merge.map, overrideSideValue]
  | error values =>
    have hvals : values = pv.2 := by
      unfold Merge.into_resolved at hres
      split at hres
      · cases hres
      · cases hres; rfl
    subst hvals
    have hlenp := hpad (by simp [isConflicted, hres])
    simp only [applyOverride, hres, overrideSideValue]
    rw [zipWithKeep_getElem? _ _ _ hlenp.symm k]
    cases hb : builders.values[k]? with
    | none => rfl
    | some b =>
      have hkb : k < builders.values.length := by
        by_contra hge
        rw [List.getElem?_eq_none (by omega)] at hb
        cases hb
      have hkp : k < (pv.2.pad_to nsides none).values.length := by omega
      rw [getElem?_eq_some_getD _ k none hkp]
      rfl

/-- The override loop acts pointwise: after the whole loop, side `k`'s
builder has received `set_or_remove` with its own side of every override, in
input order. -/
theorem foldl_applyOverride_getElem (nsides : Nat) :
    ∀ (ovs : List (RepoPath × MergedTreeValue)) (builders : Merge TreeBuilder),
      (∀ pv ∈ ovs, isConflicted pv.2 = true →
        (pv.2.pad_to nsides none).values.length = builders.values.length) →
      (ovs.foldl (applyOverride nsides) builders).values.length =
          builders.values.length ∧
      ∀ (k : Nat), (ovs.foldl (applyOverride nsides) builders).values[k]? =
        Option.map
          (fun b => ovs.foldl
            (fun (b' : TreeBuilder) pv =>
              b'.set_or_remove pv.1 (overrideSideValue nsides pv.2 k)) b)
          builders.values[k]? := by
  intro ovs
  induction ovs with
  | nil =>
    intro builders _
    refine ⟨rfl, fun k => ?_⟩
    simp only [List.foldl_nil]
    cases builders.values[k]? <;> rfl
  | cons pv rest ih =>
    intro builders hlen
    have hpadpv : isConflicted pv.2 = true →
        (pv.2.pad_to nsides none).values.length = builders.values.length :=
      hlen pv (by simp)
    have hstep_len := applyOverride_length nsides builders pv hpadpv
    obtain ⟨ihlen, ihget⟩ := ih (applyOverride nsides builders pv)
      (fun qv hqv hc => by rw [hstep_len]; exact hlen qv (by simp [hqv]) hc)
    simp only [List.foldl_cons]
    refine ⟨by rw [ihlen, hstep_len], fun k => ?_⟩
    rw [ihget k, applyOverride_getElem nsides builders pv hpadpv k]
    cases builders.values[k]? <;> rfl

theorem into_resolved_error_eq [DecidableEq α] (m e : Merge α)
    (h : m.into_resolved = .error e) : e = m := by
  unfold Merge.into_resolved at h
  split at h
  · cases h
  · cases h; rfl

theorem pad_to_length (m : Merge α) (n : Nat) (a : α)
    (hl : m.values.length % 2 = 1) (hn : n % 2 = 1 ∨ n = 0) :
    (m.pad_to n a).values.length = max m.values.length n := by
  simp only [Merge.pad_to, List.length_append, List.length_replicate]
  rw [padLen_eq _ _ hl hn]
  omega

/-- Claim C1 (amended with the builder's documented contract that a
conflicted override has the same number of sides as the base tree):
`write_tree` determines `N` as the maximum of the base arity and the
maximal override arity, pads the base tree ids to `N` sides with the empty
tree id, creates one tree builder per padded base id, and each of the `N`
builders receives, for every override, that override's side `k` (resolved
values broadcast, conflicted values padded and dispatched per side). -/
theorem write_tree_pads_base_and_dispatches_overrides
    (store : Store) (self : MergedTreeBuilder)
    (hodd : self.base_tree.treeIds.values.length % 2 = 1)
    (hovodd : ∀ pv ∈ self.overrides, pv.2.num_sides % 2 = 1)
    (hkeys : (self.overrides.map Prod.fst).Nodup)
    (hcontract : ∀ pv ∈ self.overrides, isConflicted pv.2 = true →
      pv.2.num_sides = self.base_tree.treeIds.num_sides) :
    (self.padded_base_tree_ids store).values =
        self.base_tree.treeIds.values ++
          List.replicate
            (max self.base_tree.treeIds.num_sides self.overrides_num_sides
              - self.base_tree.treeIds.num_sides) store.emptyTreeId ∧
    (self.tree_builders store).values.length =
        max self.base_tree.treeIds.num_sides self.overrides_num_sides ∧
    ∀ (k : Nat),
      k < max self.base_tree.treeIds.num_sides self.overrides_num_sides →
      (self.tree_builders store).values[k]? =
        some ⟨(self.padded_base_tree_ids store).values.getD k store.emptyTreeId,
              self.overrides.map (fun pv =>
                (pv.1, overrideSideValue
                  (max self.base_tree.treeIds.num_sides self.overrides_num_sides)
                  pv.2 k))⟩ := by
  have hns := overrides_num_sides_parity self hovodd
  have hplen := padded_base_length store self hodd hovodd
  have harities : ∀ pv ∈ self.overrides, isConflicted pv.2 = true →
      self.overrides_num_sides =
        max self.base_tree.treeIds.num_sides self.overrides_num_sides ∧
      (pv.2.pad_to self.overrides_num_sides none).values.length =
        max self.base_tree.treeIds.num_sides self.overrides_num_sides := by
    intro pv hpv hc
    have harity : pv.2.num_sides = self.base_tree.treeIds.num_sides :=
      hcontract pv hpv hc
    have hle : pv.2.num_sides ≤ self.overrides_num_sides :=
      foldl_max_le_of_mem _ 0 _ (List.mem_map.mpr ⟨pv, hpv, rfl⟩)
    have hpadov := pad_to_length pv.2 self.overrides_num_sides none
      (hovodd pv hpv) hns
    have harity' : pv.2.values.length = self.base_tree.treeIds.num_sides := harity
    constructor
    · simp only [Merge.num_sides] at harity hle ⊢
      omega
    · simp only [Merge.num_sides] at harity hle hpadov ⊢
      omega
  have hinit_len :
      ((self.padded_base_tree_ids store).map TreeBuilder.new).values.length =
        max self.base_tree.treeIds.num_sides self.overrides_num_sides := by
    simp only [Merge.map, List.length_map]
    exact hplen
  obtain ⟨hflen, hfget⟩ := foldl_applyOverride_getElem self.overrides_num_sides
    self.overrides ((self.padded_base_tree_ids store).map TreeBuilder.new)
    (fun pv hpv hc => by rw [hinit_len]; exact (harities pv hpv hc).2)
  refine ⟨padded_base_values store self hodd hovodd, ?_, ?_⟩
  · show (self.overrides.foldl (applyOverride self.overrides_num_sides)
      ((self.padded_base_tree_ids store).map TreeBuilder.new)).values.length = _
    rw [hflen, hinit_len]
  · intro k hk
    show (self.overrides.foldl (applyOverride self.overrides_num_sides)
      ((self.padded_base_tree_ids store).map TreeBuilder.new)).values[k]? = _
    rw [hfget k]
    have hkp : k < (self.padded_base_tree_ids store).values.length := by omega
    have hinit_get :
        ((self.padded_base_tree_ids store).map TreeBuilder.new).values[k]? =
          some (TreeBuilder.new
            ((self.padded_base_tree_ids store).values.getD k store.emptyTreeId)) := by
      simp only [Merge.map, List.getElem?_map]
      rw [getElem?_eq_some_getD _ k store.emptyTreeId hkp]
      rfl
    rw [hinit_get]
    simp only [Option.map_some']
    rw [show TreeBuilder.new
        ((self.padded_base_tree_ids store).values.getD k store.emptyTreeId) =
      (⟨(self.padded_base_tree_ids store).values.getD k store.emptyTreeId, []⟩ :
        TreeBuilder) from rfl]
    rw [foldl_set_or_remove
      (fun pv => overrideSideValue self.overrides_num_sides pv.2 k)
      self.overrides _ [] hkeys (by simp)]
    have hmapeq : self.overrides.map (fun pv =>
        (pv.1, overrideSideValue self.overrides_num_sides pv.2 k)) =
      self.overrides.map (fun pv =>
        (pv.1, overrideSideValue
          (max self.base_tree.treeIds.num_sides self.overrides_num_sides)
          pv.2 k)) := by
      apply List.map_congr_left
      intro pv hpv
      cases hres : pv.2.into_resolved with
      | ok value => simp [overrideSideValue, hres]
      | error values =>
        have hc : isConflicted pv.2 = true := by simp [isConflicted, hres]
        have := (harities pv hpv hc).1
        simp only [overrideSideValue, hres]
        rw [← this]
    rw [hmapeq]
    simp

/-- Claim C1, counterexample to the claim as stated: with a five-sided base
tree and a single three-sided conflicted override, `N = 5`, and side `3` of
the override padded to `N` sides is the absent value — yet builder `3`
receives nothing at all (the zip stops at the override's own three sides),
so it does not receive the corresponding side of the conflicted override. -/
theorem claim1_counterexample :
    max cex1Builder.base_tree.treeIds.num_sides cex1Builder.overrides_num_sides = 5 ∧
    isConflicted (⟨[some 10, some 11, some 12]⟩ : MergedTreeValue) = true ∧
    (((⟨[some 10, some 11, some 12]⟩ : MergedTreeValue).pad_to 5 none).values.getD
        3 none) = none ∧
    ((cex1Builder.tree_builders cexStore).values.getD 3 default).overrides = [] := by
  decide

/-- A builder input satisfying the documented contract: a three-sided base,
one resolved and one three-sided conflicted override. -/
def wit1Builder : MergedTreeBuilder :=
  { base_tree := ⟨⟨[0, 1, 2]⟩, .unlabeled⟩
    overrides := [("a", ⟨[some 5]⟩), ("b", ⟨[some 6, some 7, some 8]⟩)] }

/-- Witness for the amended claim C1 at a concrete input. -/
theorem claim1_witness :
    (wit1Builder.base_tree.treeIds.values.length % 2 = 1) ∧
    (∀ pv ∈ wit1Builder.overrides, pv.2.num_sides % 2 = 1) ∧
    ((wit1Builder.overrides.map Prod.fst).Nodup) ∧
    (∀ pv ∈ wit1Builder.overrides, isConflicted pv.2 = true →
      pv.2.num_sides = wit1Builder.base_tree.treeIds.num_sides) ∧
    ((wit1Builder.padded_base_tree_ids cexStore).values =
        wit1Builder.base_tree.treeIds.values ++
          List.replicate
            (max wit1Builder.base_tree.treeIds.num_sides
              wit1Builder.overrides_num_sides
              - wit1Builder.base_tree.treeIds.num_sides) cexStore.emptyTreeId ∧
      (wit1Builder.tree_builders cexStore).values.length =
        max wit1Builder.base_tree.treeIds.num_sides
          wit1Builder.overrides_num_sides ∧
      ∀ (k : Nat),
        k < max wit1Builder.base_tree.treeIds.num_sides
          wit1Builder.overrides_num_sides →
        (wit1Builder.tree_builders cexStore).values[k]? =
          some ⟨(wit1Builder.padded_base_tree_ids cexStore).values.getD k
                  cexStore.emptyTreeId,
                wit1Builder.overrides.map (fun pv =>
                  (pv.1, overrideSideValue
                    (max wit1Builder.base_tree.treeIds.num_sides
                      wit1Builder.overrides_num_sides)
                    pv.2 k))⟩) :=
  ⟨by decide, by decide, by decide, by decide,
    write_tree_pads_base_and_dispatches_overrides cexStore wit1Builder
      (by decide) (by decide) (by decide) (by decide)⟩

/-- Claim C7 (amended): `write_tree` returns a resolved tree directly when
the reassembled merge simplifies to a single side; otherwise it wraps the
simplified merge as a conflicted tree — keeping the base labels exactly
when their arity matches, discarding them otherwise — and returns the
result of path-level resolution on that tree (which may resolve further). -/
theorem write_tree_resolved_or_labeled (store : Store) (self : MergedTreeBuilder)
    (hodd : (self.write_merged_trees store).values.length % 2 = 1) :
    (∀ v, (self.write_merged_trees store).simplify.values = [v] →
      self.write_tree store = MergedTree.resolved v) ∧
    ((self.write_merged_trees store).simplify.values.length ≠ 1 →
      self.write_tree store =
        store.resolveTree (MergedTree.new (self.write_merged_trees store).simplify
          (if self.base_tree.labels.num_sides =
              some (self.write_merged_trees store).simplify.num_sides
           then self.base_tree.labels else ConflictLabels.unlabeled))) := by
  have hid := Merge.simplify_idempotent _ hodd
  constructor
  · intro v hv
    have hires : (self.write_merged_trees store).simplify.into_resolved =
        Except.ok v := by
      unfold Merge.into_resolved
      rw [hid, hv]
    simp only [MergedTreeBuilder.write_tree, hires]
  · intro hne
    have hires : (self.write_merged_trees store).simplify.into_resolved =
        Except.error ((self.write_merged_trees store).simplify) := by
      unfold Merge.into_resolved
      rw [hid]
      cases hvals : (self.write_merged_trees store).simplify.values with
      | nil => rfl
      | cons a t =>
        cases t with
        | nil => simp [hvals] at hne
        | cons b t2 => rfl
    simp only [MergedTreeBuilder.write_tree, hires]

/-- Claim C7, counterexample to the claim as stated: the reassembled merge
keeps three sides after `simplify`, yet `write_tree` returns a resolved
tree because the subsequent path-level resolution fully resolved the
conflict — so "resolved exactly when the merge simplifies to one side" does
not hold. -/
theorem claim7_counterexample :
    (cex7Builder.write_tree cexStore).treeIds.num_sides = 1 ∧
    (cex7Builder.write_merged_trees cexStore).simplify.num_sides = 3 := by
  decide

/-- Witness for the amended claim C7 at a concrete input. -/
theorem claim7_witness :
    ((cex7Builder.write_merged_trees cexStore).values.length % 2 = 1) ∧
    ((∀ v, (cex7Builder.write_merged_trees cexStore).simplify.values = [v] →
      cex7Builder.write_tree cexStore = MergedTree.resolved v) ∧
    ((cex7Builder.write_merged_trees cexStore).simplify.values.length ≠ 1 →
      cex7Builder.write_tree cexStore =
        cexStore.resolveTree
          (MergedTree.new (cex7Builder.write_merged_trees cexStore).simplify
          (if cex7Builder.base_tree.labels.num_sides =
              some (cex7Builder.write_merged_trees cexStore).simplify.num_sides
           then cex7Builder.base_tree.labels else ConflictLabels.unlabeled)))) :=
  ⟨by decide, write_tree_resolved_or_labeled cexStore cex7Builder (by decide)⟩

/-! Stable-sort theory: permutation, sortedness, and the stability
characterization by tied-class filters, leading to the multi-pass
composition theorem. -/

theorem insertOrdered_perm (le : α → α → Bool) (x : α) :
    ∀ l : List α, (insertOrdered le x l).Perm (x :: l) := by
  intro l
  induction l with
  | nil => exact List.Perm.refl _
  | cons y t ih =>
    simp only [insertOrdered]
    split
    · exact ((ih.cons y).trans (List.Perm.swap x y t))
    · exact List.Perm.refl _

theorem foldl_insertOrdered_perm (le : α → α → Bool) :
    ∀ (l acc : List α),
      (l.foldl (fun acc x => insertOrdered le x acc) acc).Perm (acc ++ l) := by
  intro l
  induction l with
  | nil => intro acc; simp
  | cons x t ih =>
    intro acc
    simp only [List.foldl_cons]
    refine (ih (insertOrdered le x acc)).trans ?_
    have h1 : (insertOrdered le x acc ++ t).Perm ((x :: acc) ++ t) :=
      (insertOrdered_perm le x acc).append_right t
    refine h1.trans ?_
    simp only [List.cons_append]
    exact List.perm_middle.symm

theorem insertionSort_perm (le : α → α → Bool) (l : List α) :
    (insertionSort le l).Perm l := by
  simpa using foldl_insertOrdered_perm le l []

theorem insertOrdered_sorted (le : α → α → Bool) (htot : TotalLe le)
    (htrans : TransLe le) (x : α) :
    ∀ acc : List α, acc.Pairwise (fun a b => le a b = true) →
      (insertOrdered le x acc).Pairwise (fun a b => le a b = true) := by
  intro acc
  induction acc with
  | nil => intro _; simp [insertOrdered]
  | cons y t ih =>
    intro hs
    rw [List.pairwise_cons] at hs
    simp only [insertOrdered]
    split
    case isTrue hyx =>
      rw [List.pairwise_cons]
      refine ⟨fun z hz => ?_, ih hs.2⟩
      have hz2 : z ∈ x :: t := (insertOrdered_perm le x t).mem_iff.mp hz
      rcases List.mem_cons.mp hz2 with rfl | hz'
      · exact hyx
      · exact hs.1 z hz'
    case isFalse hyx =>
      have hxy : le x y = true := (htot x y).resolve_right (by simpa using hyx)
      rw [List.pairwise_cons]
      refine ⟨fun z hz => ?_, List.pairwise_cons.mpr hs⟩
      rcases List.mem_cons.mp hz with rfl | hz'
      · exact hxy
      · exact htrans x y z hxy (hs.1 z hz')

theorem foldl_insertOrdered_sorted (le : α → α → Bool) (htot : TotalLe le)
    (htrans : TransLe le) :
    ∀ (l acc : List α), acc.Pairwise (fun a b => le a b = true) →
      (l.foldl (fun acc x => insertOrdered le x acc) acc).Pairwise
        (fun a b => le a b = true) := by
  intro l
  induction l with
  | nil => intro acc hs; exact hs
  | cons x t ih =>
    intro acc hs
    exact ih _ (insertOrdered_sorted le htot htrans x acc hs)

theorem insertionSort_sorted (le : α → α → Bool) (htot : TotalLe le)
    (htrans : TransLe le) (l : List α) :
    (insertionSort le l).Pairwise (fun a b => le a b = true) :=
  foldl_insertOrdered_sorted le htot htrans l [] (by simp)

theorem insertOrdered_append_of_all_le (le : α → α → Bool) (x : α) :
    ∀ acc : List α, (∀ y ∈ acc, le y x = true) →
      insertOrdered le x acc = acc ++ [x] := by
  intro acc
  induction acc with
  | nil => intro _; rfl
  | cons y t ih =>
    intro h
    simp only [insertOrdered, h y (by simp), if_true]
    rw [ih (fun z hz => h z (by simp [hz]))]
    rfl

theorem foldl_insertOrdered_of_sorted (le : α → α → Bool) :
    ∀ (l acc : List α), l.Pairwise (fun a b => le a b = true) →
      (∀ x ∈ l, ∀ y ∈ acc, le y x = true) →
      l.foldl (fun acc x => insertOrdered le x acc) acc = acc ++ l := by
  intro l
  induction l with
  | nil => intro acc _ _; simp
  | cons x t ih =>
    intro acc hs hle
    rw [List.pairwise_cons] at hs
    simp only [List.foldl_cons]
    rw [insertOrdered_append_of_all_le le x acc (hle x (by simp))]
    rw [ih (acc ++ [x]) hs.2 ?_]
    · simp
    · intro z hz y hy
      rcases List.mem_append.mp hy with hy' | hy'
      · exact hle z (by simp [hz]) y hy'
      · rw [List.mem_singleton.mp hy']
        exact hs.1 z hz

/-- A stable sort of an already sorted list is the identity. -/
theorem insertionSort_of_sorted (le : α → α → Bool) (l : List α)
    (hs : l.Pairwise (fun a b => le a b = true)) : insertionSort le l = l := by
  simpa using foldl_insertOrdered_of_sorted le l [] hs (by simp)

theorem insertOrdered_filter (le : α → α → Bool) (htot : TotalLe le)
    (htrans : TransLe le) (x x' : α) :
    ∀ acc : List α, acc.Pairwise (fun a b => le a b = true) →
      (insertOrdered le x acc).filter (fun y => le x' y && le y x') =
        acc.filter (fun y => le x' y && le y x') ++
          (if le x' x && le x x' then [x] else []) := by
  intro acc
  induction acc with
  | nil =>
    intro _
    simp only [insertOrdered, List.filter_nil, List.nil_append]
    by_cases hpx : (le x' x && le x x') = true <;> simp [hpx]
  | cons y t ih =>
    intro hs
    rw [List.pairwise_cons] at hs
    simp only [insertOrdered]
    split
    case isTrue hyx =>
      rw [List.filter_cons, List.filter_cons, ih hs.2]
      by_cases hpy : (le x' y && le y x') = true <;> simp [hpy]
    case isFalse hyx =>
      rw [List.filter_cons]
      by_cases hpx : (le x' x && le x x') = true
      · have hpx2 : le x' x = true ∧ le x x' = true := by simpa using hpx
        have hnil : (y :: t).filter (fun z => le x' z && le z x') = [] := by
          rw [List.filter_eq_nil_iff]
          intro z hz
          simp only [Bool.and_eq_true, not_and]
          intro _ hzx'
          have hyz : le y z = true := by
            rcases List.mem_cons.mp hz with h | hz'
            · subst h; exact (htot _ _).elim id id
            · exact hs.1 z hz'
          have hzx : le z x = true := htrans z x' x hzx' hpx2.1
          have : le y x = true := htrans y z x hyz hzx
          simp [this] at hyx
        simp [hnil, hpx]
      · have hnil2 : ¬ ((le x' x && le x x') = true) := hpx
        simp [hpx]

theorem foldl_insertOrdered_filter (le : α → α → Bool) (htot : TotalLe le)
    (htrans : TransLe le) (x' : α) :
    ∀ (l acc : List α), acc.Pairwise (fun a b => le a b = true) →
      (l.foldl (fun acc x => insertOrdered le x acc) acc).filter
          (fun y => le x' y && le y x') =
        acc.filter (fun y => le x' y && le y x') ++
          l.filter (fun y => le x' y && le y x') := by
  intro l
  induction l with
  | nil => intro acc _; simp
  | cons x t ih =>
    intro acc hs
    simp only [List.foldl_cons]
    rw [ih (insertOrdered le x acc) (insertOrdered_sorted le htot htrans x acc hs)]
    rw [insertOrdered_filter le htot htrans x x' acc hs]
    rw [List.filter_cons]
    by_cases hpx : (le x' x && le x x') = true <;> simp [hpx]

/-- Stability: a stable sort keeps each class of mutually tied elements in
input order. -/
theorem insertionSort_filter (le : α → α → Bool) (htot : TotalLe le)
    (htrans : TransLe le) (x' : α) (l : List α) :
    (insertionSort le l).filter (fun y => le x' y && le y x') =
      l.filter (fun y => le x' y && le y x') := by
  simpa using foldl_insertOrdered_filter le htot htrans x' l [] (by simp)

/-- A sorted permutation is determined by its tied-class filters: two sorted
lists that are permutations of each other and agree on every tied class are
equal. -/
theorem sorted_eq_of_perm_filter (le : α → α → Bool) (htot : TotalLe le) :
    ∀ (l1 l2 : List α), l1.Perm l2 →
      l1.Pairwise (fun a b => le a b = true) →
      l2.Pairwise (fun a b => le a b = true) →
      (∀ x, l1.filter (fun y => le x y && le y x) =
            l2.filter (fun y => le x y && le y x)) →
      l1 = l2 := by
  intro l1
  induction l1 with
  | nil =>
    intro l2 hp _ _ _
    exact (List.perm_nil.mp hp.symm).symm
  | cons a t1 ih =>
    intro l2 hp hs1 hs2 hf
    cases l2 with
    | nil => exact absurd (List.perm_nil.mp hp) (by simp)
    | cons b t2 =>
      have hrefl : ∀ z, le z z = true := fun z => (htot z z).elim id id
      have htied : le a b = true ∧ le b a = true := by
        have hamem : a ∈ b :: t2 := hp.mem_iff.mp (by simp)
        have hbmem : b ∈ a :: t1 := hp.mem_iff.mpr (by simp)
        rcases List.mem_cons.mp hamem with h | ha'
        · subst h; exact ⟨hrefl a, hrefl a⟩
        · rcases List.mem_cons.mp hbmem with h | hb'
          · subst h; exact ⟨hrefl b, hrefl b⟩
          · exact ⟨(List.pairwise_cons.mp hs1).1 b hb',
              (List.pairwise_cons.mp hs2).1 a ha'⟩
      have hab : a = b := by
        have hfa := hf a
        rw [List.filter_cons, List.filter_cons] at hfa
        rw [if_pos (show (le a a && le a a) = true by simp [hrefl a])] at hfa
        rw [if_pos (show (le a b && le b a) = true by
          simp [htied.1, htied.2])] at hfa
        exact (List.cons_eq_cons.mp hfa).1
      subst hab
      have ht : t1.Perm t2 := hp.cons_inv
      have hfil : ∀ x, t1.filter (fun y => le x y && le y x) =
          t2.filter (fun y => le x y && le y x) := by
        intro x
        have hfx := hf x
        rw [List.filter_cons, List.filter_cons] at hfx
        by_cases hpa : (le x a && le a x) = true
        · rw [if_pos hpa, if_pos hpa] at hfx
          exact (List.cons_eq_cons.mp hfx).2
        · rw [if_neg hpa, if_neg hpa] at hfx
          exact hfx
      rw [ih t2 ht (List.pairwise_cons.mp hs1).2 (List.pairwise_cons.mp hs2).2 hfil]

theorem trueLe_total : TotalLe (trueLe (α := α)) := fun _ _ => Or.inl rfl

theorem trueLe_trans : TransLe (trueLe (α := α)) := fun _ _ _ _ _ => rfl

theorem insertionSort_trueLe (l : List α) : insertionSort trueLe l = l :=
  insertionSort_of_sorted trueLe l (List.pairwise_of_forall (fun _ _ => rfl))

theorem lexLe_total (le1 le2 : α → α → Bool) (h1 : TotalLe le1)
    (h2 : TotalLe le2) : TotalLe (lexLe le1 le2) := by
  intro x y
  rcases h1 x y with hxy | hyx
  · cases hyx : le1 y x
    · left; simp [lexLe, hxy, hyx]
    · rcases h2 x y with g | g
      · left; simp [lexLe, hxy, hyx, g]
      · right; simp [lexLe, hxy, hyx, g]
  · cases hxy : le1 x y
    · right; simp [lexLe, hyx, hxy]
    · rcases h2 x y with g | g
      · left; simp [lexLe, hxy, hyx, g]
      · right; simp [lexLe, hxy, hyx, g]

theorem lexLe_trans (le1 le2 : α → α → Bool) (h1 : TransLe le1)
    (h2 : TransLe le2) : TransLe (lexLe le1 le2) := by
  intro x y z hxy hyz
  simp only [lexLe, Bool.and_eq_true, Bool.or_eq_true, Bool.not_eq_true'] at hxy hyz ⊢
  obtain ⟨hxy1, hxy2⟩ := hxy
  obtain ⟨hyz1, hyz2⟩ := hyz
  refine ⟨h1 x y z hxy1 hyz1, ?_⟩
  cases hzx : le1 z x
  · left; rfl
  · right
    have hyx : le1 y x = true := h1 y z x hyz1 hzx
    have hzy : le1 z y = true := h1 z x y hzx hxy1
    have g1 : le2 x y = true := by
      rcases hxy2 with h | h
      · rw [hyx] at h; cases h
      · exact h
    have g2 : le2 y z = true := by
      rcases hyz2 with h | h
      · rw [hzy] at h; cases h
      · exact h
    exact h2 x y z g1 g2

theorem lexLe_tied (le1 le2 : α → α → Bool) (x y : α) :
    (lexLe le1 le2 x y && lexLe le1 le2 y x) =
      ((le1 x y && le1 y x) && (le2 x y && le2 y x)) := by
  cases h1 : le1 x y <;> cases h2 : le1 y x <;>
    cases h3 : le2 x y <;> cases h4 : le2 y x <;>
    simp [lexLe, h1, h2, h3, h4]

/-- Over an already `le2`-sorted input, sorting by `le1` and sorting by the
lexicographic `le1`-then-`le2` comparator produce the same list: all `le1`
ties that matter are already in `le2` order. -/
theorem insertOrdered_lex_of_le2 (le1 le2 : α → α → Bool) (x : α) :
    ∀ acc : List α, (∀ y ∈ acc, le2 y x = true) →
      insertOrdered le1 x acc = insertOrdered (lexLe le1 le2) x acc := by
  intro acc
  induction acc with
  | nil => intro _; rfl
  | cons y t ih =>
    intro h
    have hy : le2 y x = true := h y (by simp)
    have hcond : lexLe le1 le2 y x = le1 y x := by
      simp [lexLe, hy]
    simp only [insertOrdered, hcond]
    rw [ih (fun z hz => h z (by simp [hz]))]

theorem foldl_insert_lex_of_sorted (le1 le2 : α → α → Bool) :
    ∀ (l acc : List α), l.Pairwise (fun a b => le2 a b = true) →
      (∀ x ∈ l, ∀ y ∈ acc, le2 y x = true) →
      l.foldl (fun acc x => insertOrdered le1 x acc) acc =
        l.foldl (fun acc x => insertOrdered (lexLe le1 le2) x acc) acc := by
  intro l
  induction l with
  | nil => intro acc _ _; rfl
  | cons x t ih =>
    intro acc hs hle
    rw [List.pairwise_cons] at hs
    simp only [List.foldl_cons]
    rw [← insertOrdered_lex_of_le2 le1 le2 x acc (hle x (by simp))]
    refine ih (insertOrdered le1 x acc) hs.2 ?_
    intro z hz y hy
    have hy2 : y ∈ x :: acc := (insertOrdered_perm le1 x acc).mem_iff.mp hy
    rcases List.mem_cons.mp hy2 with h | hy'
    · subst h; exact hs.1 z hz
    · exact hle z (by simp [hz]) y hy'

theorem insertionSort_lex_of_sorted (le1 le2 : α → α → Bool) (l : List α)
    (hs : l.Pairwise (fun a b => le2 a b = true)) :
    insertionSort le1 l = insertionSort (lexLe le1 le2) l :=
  foldl_insert_lex_of_sorted le1 le2 l [] hs (by simp)

/-- Pre-sorting by the tie-breaking comparator does not change the result of
a stable lexicographic sort. -/
theorem insertionSort_lex_absorb (le1 le2 : α → α → Bool)
    (htot1 : TotalLe le1) (htrans1 : TransLe le1)
    (htot2 : TotalLe le2) (htrans2 : TransLe le2) (l : List α) :
    insertionSort (lexLe le1 le2) (insertionSort le2 l) =
      insertionSort (lexLe le1 le2) l := by
  have htot := lexLe_total le1 le2 htot1 htot2
  have htrans := lexLe_trans le1 le2 htrans1 htrans2
  apply sorted_eq_of_perm_filter (lexLe le1 le2) htot
  · exact (insertionSort_perm _ _).trans ((insertionSort_perm _ _).trans
      (insertionSort_perm _ _).symm)
  · exact insertionSort_sorted _ htot htrans _
  · exact insertionSort_sorted _ htot htrans _
  · intro x
    rw [insertionSort_filter _ htot htrans x, insertionSort_filter _ htot htrans x]
    have hsplit : ∀ m : List α,
        m.filter (fun y => lexLe le1 le2 x y && lexLe le1 le2 y x) =
          (m.filter (fun y => le2 x y && le2 y x)).filter
            (fun y => le1 x y && le1 y x) := by
      intro m
      rw [List.filter_filter]
      exact List.filter_congr (fun a _ => lexLe_tied le1 le2 x a)
    rw [hsplit, hsplit, insertionSort_filter le2 htot2 htrans2 x l]

theorem strLe_total : TotalLe strLe := by
  intro a b
  rcases Nat.le_total a b with h | h
  · left; simp [strLe, h]
  · right; simp [strLe, h]

theorem strLe_trans : TransLe strLe := by
  intro a b c h1 h2
  simp only [strLe, decide_eq_true_eq] at h1 h2 ⊢
  exact Nat.le_trans h1 h2

theorem intLe_total : TotalLe intLe := by
  intro a b
  rcases Int.le_total a b with h | h
  · left; simp [intLe, h]
  · right; simp [intLe, h]

theorem intLe_trans : TransLe intLe := by
  intro a b c h1 h2
  simp only [intLe, decide_eq_true_eq] at h1 h2 ⊢
  exact Int.le_trans h1 h2

theorem optLeBy_total (le : κ → κ → Bool) (h : TotalLe le) : TotalLe (optLeBy le) := by
  intro x y
  rcases x with _ | a <;> rcases y with _ | b
  · left; rfl
  · left; rfl
  · right; rfl
  · exact h a b

theorem optLeBy_trans (le : κ → κ → Bool) (h : TransLe le) : TransLe (optLeBy le) := by
  intro x y z hxy hyz
  rcases x with _ | a
  · rfl
  · rcases y with _ | b
    · simp [optLeBy] at hxy
    · rcases z with _ | c
      · simp [optLeBy] at hyz
      · exact h a b c hxy hyz

theorem flipLe_total (le : α → α → Bool) (h : TotalLe le) : TotalLe (flipLe le) :=
  fun x y => h y x

theorem flipLe_trans (le : α → α → Bool) (h : TransLe le) : TransLe (flipLe le) :=
  fun x y z hxy hyz => h z y x hyz hxy

theorem nameKeyLe_total : TotalLe nameKeyLe := by
  intro a b
  unfold nameKeyLe
  by_cases h : a.primary.name = b.primary.name
  · rw [if_pos h, if_pos h.symm]
    exact optLeBy_total strLe strLe_total _ _
  · rw [if_neg h, if_neg (fun he => h he.symm)]
    rcases Nat.lt_trichotomy a.primary.name b.primary.name with hlt | heq | hgt
    · left; simp [strLt, hlt]
    · exact absurd heq h
    · right; simp [strLt, hgt]

theorem nameKeyLe_trans : TransLe nameKeyLe := by
  intro a b c h1 h2
  unfold nameKeyLe at *
  by_cases hab : a.primary.name = b.primary.name <;>
    by_cases hbc : b.primary.name = c.primary.name
  · rw [if_pos hab] at h1
    rw [if_pos hbc] at h2
    rw [if_pos (hab.trans hbc)]
    exact optLeBy_trans strLe strLe_trans _ _ _ h1 h2
  · rw [if_neg hbc] at h2
    rw [if_neg (fun he => hbc (hab.symm.trans he))]
    rw [hab]
    exact h2
  · rw [if_neg hab] at h1
    rw [if_neg (fun he => hab (he.trans hbc.symm))]
    rw [← hbc]
    exact h1
  · rw [if_neg hab] at h1
    rw [if_neg hbc] at h2
    simp only [strLt, decide_eq_true_eq] at h1 h2
    have hac : a.primary.name < c.primary.name := Nat.lt_trans h1 h2
    rw [if_neg (Nat.ne_of_lt hac)]
    simp [strLt, hac]

theorem byOptKey_total (f : RefListItem → Option κ) (le0 : κ → κ → Bool)
    (h : TotalLe le0) : TotalLe (fun a b => optLeBy le0 (f a) (f b)) :=
  fun a b => optLeBy_total le0 h (f a) (f b)

theorem byOptKey_trans (f : RefListItem → Option κ) (le0 : κ → κ → Bool)
    (h : TransLe le0) : TransLe (fun a b => optLeBy le0 (f a) (f b)) :=
  fun a b c h1 h2 => optLeBy_trans le0 h (f a) (f b) (f c) h1 h2

theorem keyLe_total (commits : List (CommitId × BackendCommit)) (k : SortKey) :
    TotalLe (keyLe commits k) := by
  cases k
  case Name => exact nameKeyLe_total
  case NameDesc => exact flipLe_total _ nameKeyLe_total
  case AuthorName => exact byOptKey_total _ strLe strLe_total
  case AuthorNameDesc => exact flipLe_total _ (byOptKey_total _ strLe strLe_total)
  case AuthorEmail => exact byOptKey_total _ strLe strLe_total
  case AuthorEmailDesc => exact flipLe_total _ (byOptKey_total _ strLe strLe_total)
  case AuthorDate => exact byOptKey_total _ intLe intLe_total
  case AuthorDateDesc => exact flipLe_total _ (byOptKey_total _ intLe intLe_total)
  case CommitterName => exact byOptKey_total _ strLe strLe_total
  case CommitterNameDesc => exact flipLe_total _ (byOptKey_total _ strLe strLe_total)
  case CommitterEmail => exact byOptKey_total _ strLe strLe_total
  case CommitterEmailDesc => exact flipLe_total _ (byOptKey_total _ strLe strLe_total)
  case CommitterDate => exact byOptKey_total _ intLe intLe_total
  case CommitterDateDesc => exact flipLe_total _ (byOptKey_total _ intLe intLe_total)

theorem keyLe_trans (commits : List (CommitId × BackendCommit)) (k : SortKey) :
    TransLe (keyLe commits k) := by
  cases k
  case Name => exact nameKeyLe_trans
  case NameDesc => exact flipLe_trans _ nameKeyLe_trans
  case AuthorName => exact byOptKey_trans _ strLe strLe_trans
  case AuthorNameDesc => exact flipLe_trans _ (byOptKey_trans _ strLe strLe_trans)
  case AuthorEmail => exact byOptKey_trans _ strLe strLe_trans
  case AuthorEmailDesc => exact flipLe_trans _ (byOptKey_trans _ strLe strLe_trans)
  case AuthorDate => exact byOptKey_trans _ intLe intLe_trans
  case AuthorDateDesc => exact flipLe_trans _ (byOptKey_trans _ intLe intLe_trans)
  case CommitterName => exact byOptKey_trans _ strLe strLe_trans
  case CommitterNameDesc => exact flipLe_trans _ (byOptKey_trans _ strLe strLe_trans)
  case CommitterEmail => exact byOptKey_trans _ strLe strLe_trans
  case CommitterEmailDesc => exact flipLe_trans _ (byOptKey_trans _ strLe strLe_trans)
  case CommitterDate => exact byOptKey_trans _ intLe intLe_trans
  case CommitterDateDesc => exact flipLe_trans _ (byOptKey_trans _ intLe intLe_trans)

theorem lexChain_total (commits : List (CommitId × BackendCommit)) :
    ∀ keys : List SortKey, TotalLe (lexChain commits keys) := by
  intro keys
  induction keys with
  | nil => exact trueLe_total
  | cons k rest ih => exact lexLe_total _ _ (keyLe_total commits k) ih

theorem lexChain_trans (commits : List (CommitId × BackendCommit)) :
    ∀ keys : List SortKey, TransLe (lexChain commits keys) := by
  intro keys
  induction keys with
  | nil => exact trueLe_trans
  | cons k rest ih => exact lexLe_trans _ _ (keyLe_trans commits k) ih

theorem sort_all_eq_multiPass (items : List RefListItem) (keys : List SortKey)
    (commits : List (CommitId × BackendCommit)) :
    sort_all_passes items keys commits = multiPass commits keys items := by
  unfold sort_all_passes
  rw [List.foldl_reverse]
  induction keys with
  | nil => rfl
  | cons k rest ih => simp only [List.foldr_cons, multiPass, ih]

theorem multiPass_eq_lexChain (commits : List (CommitId × BackendCommit))
    (keys : List SortKey) (items : List RefListItem) :
    multiPass commits keys items = insertionSort (lexChain commits keys) items := by
  induction keys with
  | nil => simp [multiPass, lexChain, insertionSort_trueLe]
  | cons k rest ih =>
    simp only [multiPass, lexChain]
    rw [ih]
    rw [insertionSort_lex_of_sorted (keyLe commits k) (lexChain commits rest) _
      (insertionSort_sorted _ (lexChain_total commits rest)
        (lexChain_trans commits rest) items)]
    exact insertionSort_lex_absorb (keyLe commits k) (lexChain commits rest)
      (keyLe_total commits k) (keyLe_trans commits k)
      (lexChain_total commits rest) (lexChain_trans commits rest) items

theorem foldl_name_passes_id (commits : List (CommitId × BackendCommit)) :
    ∀ (run : List SortKey) (items : List RefListItem),
      (∀ k ∈ run, k = SortKey.Name) →
      items.Pairwise (fun a b => nameKeyLe a b = true) →
      run.foldl (fun acc key => insertionSort (keyLe commits key) acc) items =
        items := by
  intro run
  induction run with
  | nil => intro items _ _; rfl
  | cons k rest ih =>
    intro items hk hsorted
    have hkn : k = SortKey.Name := hk k (by simp)
    subst hkn
    simp only [List.foldl_cons]
    rw [show insertionSort (keyLe commits SortKey.Name) items = items from
      insertionSort_of_sorted _ items hsorted]
    exact ih items (fun k' hk' => hk k' (by simp [hk'])) hsorted

theorem sort_inner_eq_all_passes (items : List RefListItem) (keys : List SortKey)
    (commits : List (CommitId × BackendCommit))
    (hsorted : items.Pairwise (fun a b => nameKeyLe a b = true)) :
    sort_inner items keys commits = sort_all_passes items keys commits := by
  unfold sort_inner sort_all_passes
  have hsplit : keys.reverse.foldl
      (fun acc key => insertionSort (keyLe commits key) acc) items =
      (keys.reverse.takeWhile (fun k => k == SortKey.Name) ++
        keys.reverse.dropWhile (fun k => k == SortKey.Name)).foldl
        (fun acc key => insertionSort (keyLe commits key) acc) items := by
    rw [List.takeWhile_append_dropWhile]
  have hid := foldl_name_passes_id commits
    (keys.reverse.takeWhile (fun k => k == SortKey.Name)) items
    (fun k hk => by simpa using List.mem_takeWhile_imp hk) hsorted
  rw [hsplit, List.foldl_append, hid]

/-- Claim C4 (amended): with the items pre-sorted by the `(name, remote)`
key, `sort_inner` runs one stable pass per key from the last key to the
first; the skipped passes are exactly the trailing run of `Name` keys
(whose passes are no-ops on name-sorted input, so the skip does not change
the result), and the resulting order is the lexicographic order over the
keys with the first key most significant, ties broken by input order. -/
theorem sort_inner_lexicographic (commits : List (CommitId × BackendCommit))
    (keys : List SortKey) (items : List RefListItem)
    (hsorted : items.Pairwise (fun a b => keyLe commits SortKey.Name a b = true)) :
    sort_inner items keys commits = sort_all_passes items keys commits ∧
    sort_inner items keys commits = insertionSort (lexChain commits keys) items := by
  have h1 := sort_inner_eq_all_passes items keys commits hsorted
  have h2 := sort_all_eq_multiPass items keys commits
  have h3 := multiPass_eq_lexChain commits keys items
  exact ⟨h1, h1.trans (h2.trans h3)⟩

/-- Claim C4, counterexample to the claim as stated: with keys
`[Name, AuthorDate]` the `Name` key is the first key, so by the claim its
pass would be skipped and the single remaining pass would sort by author
date only, giving `[B, A]`; the code performs the `Name` pass (it skips
only trailing `Name` keys) and returns `[A, B]`. -/
theorem claim4_counterexample :
    sort_inner [cex4ItemA, cex4ItemB] [SortKey.Name, SortKey.AuthorDate]
        cex4Commits = [cex4ItemA, cex4ItemB] ∧
    insertionSort (keyLe cex4Commits SortKey.AuthorDate) [cex4ItemA, cex4ItemB]
        = [cex4ItemB, cex4ItemA] ∧
    cex4ItemA ≠ cex4ItemB := by
  decide

/-- Witness for the amended claim C4 at a concrete input. -/
theorem claim4_witness :
    ([cex4ItemA, cex4ItemB].Pairwise
      (fun a b => keyLe cex4Commits SortKey.Name a b = true)) ∧
    (sort_inner [cex4ItemA, cex4ItemB] [SortKey.Name, SortKey.AuthorDate]
        cex4Commits =
      sort_all_passes [cex4ItemA, cex4ItemB] [SortKey.Name, SortKey.AuthorDate]
        cex4Commits ∧
    sort_inner [cex4ItemA, cex4ItemB] [SortKey.Name, SortKey.AuthorDate]
        cex4Commits =
      insertionSort (lexChain cex4Commits [SortKey.Name, SortKey.AuthorDate])
        [cex4ItemA, cex4ItemB]) :=
  ⟨by decide, sort_inner_lexicographic cex4Commits
    [SortKey.Name, SortKey.AuthorDate] [cex4ItemA, cex4ItemB] (by decide)⟩

theorem optKey_absent_first (f : BackendCommit → κ) (le0 : κ → κ → Bool)
    (commits : List (CommitId × BackendCommit)) (a b : RefListItem)
    (ha : to_commit commits a = none) (hb : to_commit commits b ≠ none) :
    optLeBy le0 (commitKey f commits a) (commitKey f commits b) = true ∧
    optLeBy le0 (commitKey f commits b) (commitKey f commits a) = false := by
  obtain ⟨c, hc⟩ := Option.ne_none_iff_exists'.mp hb
  simp [commitKey, ha, hc, optLeBy]

theorem optKey_le_none (f : BackendCommit → κ) (le0 : κ → κ → Bool)
    (commits : List (CommitId × BackendCommit)) (x y : RefListItem)
    (h : optLeBy le0 (commitKey f commits x) (commitKey f commits y) = true)
    (hy : to_commit commits y = none) : to_commit commits x = none := by
  cases hx : to_commit commits x with
  | none => rfl
  | some c =>
    exfalso
    have hxk : commitKey f commits x = some (f c) := by
      rw [commitKey, hx]; rfl
    have hyk : commitKey f commits y = none := by
      rw [commitKey, hy]; rfl
    rw [hxk, hyk] at h
    simp [optLeBy] at h

theorem sorted_pairwise_imp (le : α → α → Bool) (htot : TotalLe le)
    (htrans : TransLe le) (P : α → Prop)
    (habs : ∀ x y, le x y = true → P y → P x) (items : List α) :
    (insertionSort le items).Pairwise (fun x y => P y → P x) :=
  (insertionSort_sorted le htot htrans items).imp (fun h hy => habs _ _ h hy)

theorem sorted_pairwise_imp2 (le : α → α → Bool) (htot : TotalLe le)
    (htrans : TransLe le) (P : α → Prop)
    (habs : ∀ x y, le x y = true → P x → P y) (items : List α) :
    (insertionSort le items).Pairwise (fun x y => P x → P y) :=
  (insertionSort_sorted le htot htrans items).imp (fun h hx => habs _ _ h hx)

/-- Claim C8: in every pass over a commit-dependent key, an item whose
primary ref has no target commit compares as the absent value: strictly
before every present item under an ascending key (and so ends up in the
absent prefix of the pass output), strictly after every present item under
the corresponding descending key (and ends up in the absent suffix). -/
theorem commit_dependent_absent_ordering
    (commits : List (CommitId × BackendCommit)) (key : SortKey)
    (hdep : key.is_commit_dependant = true)
    (a b : RefListItem) (ha : to_commit commits a = none)
    (hb : to_commit commits b ≠ none) :
    (key.is_descending = false →
      keyLe commits key a b = true ∧ keyLe commits key b a = false ∧
      ∀ items : List RefListItem,
        (insertionSort (keyLe commits key) items).Pairwise
          (fun x y => to_commit commits y = none → to_commit commits x = none)) ∧
    (key.is_descending = true →
      keyLe commits key b a = true ∧ keyLe commits key a b = false ∧
      ∀ items : List RefListItem,
        (insertionSort (keyLe commits key) items).Pairwise
          (fun x y => to_commit commits x = none → to_commit commits y = none)) := by
  cases key
  case Name => cases hdep
  case NameDesc => cases hdep
  case AuthorName =>
    refine ⟨fun _ => ?_, fun hd => by simp [SortKey.is_descending] at hd⟩
    obtain ⟨h1, h2⟩ := optKey_absent_first (fun c => c.author.name) strLe
      commits a b ha hb
    exact ⟨h1, h2, fun items => sorted_pairwise_imp _
      (keyLe_total commits .AuthorName) (keyLe_trans commits .AuthorName) _
      (fun x y hxy hy => optKey_le_none (fun c => c.author.name) strLe
        commits x y hxy hy) items⟩
  case AuthorNameDesc =>
    refine ⟨fun hd => by simp [SortKey.is_descending] at hd, fun _ => ?_⟩
    obtain ⟨h1, h2⟩ := optKey_absent_first (fun c => c.author.name) strLe
      commits a b ha hb
    exact ⟨h1, h2, fun items => sorted_pairwise_imp2 _
      (keyLe_total commits .AuthorNameDesc) (keyLe_trans commits .AuthorNameDesc) _
      (fun x y hxy hx => optKey_le_none (fun c => c.author.name) strLe
        commits y x hxy hx) items⟩
  case AuthorEmail =>
    refine ⟨fun _ => ?_, fun hd => by simp [SortKey.is_descending] at hd⟩
    obtain ⟨h1, h2⟩ := optKey_absent_first (fun c => c.author.email) strLe
      commits a b ha hb
    exact ⟨h1, h2, fun items => sorted_pairwise_imp _
      (keyLe_total commits .AuthorEmail) (keyLe_trans commits .AuthorEmail) _
      (fun x y hxy hy => optKey_le_none (fun c => c.author.email) strLe
        commits x y hxy hy) items⟩
  case AuthorEmailDesc =>
    refine ⟨fun hd => by simp [SortKey.is_descending] at hd, fun _ => ?_⟩
    obtain ⟨h1, h2⟩ := optKey_absent_first (fun c => c.author.email) strLe
      commits a b ha hb
    exact ⟨h1, h2, fun items => sorted_pairwise_imp2 _
      (keyLe_total commits .AuthorEmailDesc) (keyLe_trans commits .AuthorEmailDesc) _
      (fun x y hxy hx => optKey_le_none (fun c => c.author.email) strLe
        commits y x hxy hx) items⟩
  case AuthorDate =>
    refine ⟨fun _ => ?_, fun hd => by simp [SortKey.is_descending] at hd⟩
    obtain ⟨h1, h2⟩ := optKey_absent_first (fun c => c.author.timestamp) intLe
      commits a b ha hb
    exact ⟨h1, h2, fun items => sorted_pairwise_imp _
      (keyLe_total commits .AuthorDate) (keyLe_trans commits .AuthorDate) _
      (fun x y hxy hy => optKey_le_none (fun c => c.author.timestamp) intLe
        commits x y hxy hy) items⟩
  case AuthorDateDesc =>
    refine ⟨fun hd => by simp [SortKey.is_descending] at hd, fun _ => ?_⟩
    obtain ⟨h1, h2⟩ := optKey_absent_first (fun c => c.author.timestamp) intLe
      commits a b ha hb
    exact ⟨h1, h2, fun items => sorted_pairwise_imp2 _
      (keyLe_total commits .AuthorDateDesc) (keyLe_trans commits .AuthorDateDesc) _
      (fun x y hxy hx => optKey_le_none (fun c => c.author.timestamp) intLe
        commits y x hxy hx) items⟩
  case CommitterName =>
    refine ⟨fun _ => ?_, fun hd => by simp [SortKey.is_descending] at hd⟩
    obtain ⟨h1, h2⟩ := optKey_absent_first (fun c => c.committer.name) strLe
      commits a b ha hb
    exact ⟨h1, h2, fun items => sorted_pairwise_imp _
      (keyLe_total commits .CommitterName) (keyLe_trans commits .CommitterName) _
      (fun x y hxy hy => optKey_le_none (fun c => c.committer.name) strLe
        commits x y hxy hy) items⟩
  case CommitterNameDesc =>
    refine ⟨fun hd => by simp [SortKey.is_descending] at hd, fun _ => ?_⟩
    obtain ⟨h1, h2⟩ := optKey_absent_first (fun c => c.committer.name) strLe
      commits a b ha hb
    exact ⟨h1, h2, fun items => sorted_pairwise_imp2 _
      (keyLe_total commits .CommitterNameDesc)
      (keyLe_trans commits .CommitterNameDesc) _
      (fun x y hxy hx => optKey_le_none (fun c => c.committer.name) strLe
        commits y x hxy hx) items⟩
  case CommitterEmail =>
    refine ⟨fun _ => ?_, fun hd => by simp [SortKey.is_descending] at hd⟩
    obtain ⟨h1, h2⟩ := optKey_absent_first (fun c => c.committer.email) strLe
      commits a b ha hb
    exact ⟨h1, h2, fun items => sorted_pairwise_imp _
      (keyLe_total commits .CommitterEmail) (keyLe_trans commits .CommitterEmail) _
      (fun x y hxy hy => optKey_le_none (fun c => c.committer.email) strLe
        commits x y hxy hy) items⟩
  case CommitterEmailDesc =>
    refine ⟨fun hd => by simp [SortKey.is_descending] at hd, fun _ => ?_⟩
    obtain ⟨h1, h2⟩ := optKey_absent_first (fun c => c.committer.email) strLe
      commits a b ha hb
    exact ⟨h1, h2, fun items => sorted_pairwise_imp2 _
      (keyLe_total commits .CommitterEmailDesc)
      (keyLe_trans commits .CommitterEmailDesc) _
      (fun x y hxy hx => optKey_le_none (fun c => c.committer.email) strLe
        commits y x hxy hx) items⟩
  case CommitterDate =>
    refine ⟨fun _ => ?_, fun hd => by simp [SortKey.is_descending] at hd⟩
    obtain ⟨h1, h2⟩ := optKey_absent_first (fun c => c.committer.timestamp) intLe
      commits a b ha hb
    exact ⟨h1, h2, fun items => sorted_pairwise_imp _
      (keyLe_total commits .CommitterDate) (keyLe_trans commits .CommitterDate) _
      (fun x y hxy hy => optKey_le_none (fun c => c.committer.timestamp) intLe
        commits x y hxy hy) items⟩
  case CommitterDateDesc =>
    refine ⟨fun hd => by simp [SortKey.is_descending] at hd, fun _ => ?_⟩
    obtain ⟨h1, h2⟩ := optKey_absent_first (fun c => c.committer.timestamp) intLe
      commits a b ha hb
    exact ⟨h1, h2, fun items => sorted_pairwise_imp2 _
      (keyLe_total commits .CommitterDateDesc)
      (keyLe_trans commits .CommitterDateDesc) _
      (fun x y hxy hx => optKey_le_none (fun c => c.committer.timestamp) intLe
        commits y x hxy hx) items⟩

/-- Witness for claim C8 at a concrete input: an ascending commit-dependent
key and one absent, one present item. -/
theorem claim8_witness :
    (SortKey.AuthorDate.is_commit_dependant = true) ∧
    (to_commit cex4Commits wit8ItemAbsent = none) ∧
    (to_commit cex4Commits wit8ItemPresent ≠ none) ∧
    ((SortKey.AuthorDate.is_descending = false →
      keyLe cex4Commits SortKey.AuthorDate wit8ItemAbsent wit8ItemPresent = true ∧
      keyLe cex4Commits SortKey.AuthorDate wit8ItemPresent wit8ItemAbsent = false ∧
      ∀ items : List RefListItem,
        (insertionSort (keyLe cex4Commits SortKey.AuthorDate) items).Pairwise
          (fun x y => to_commit cex4Commits y = none →
            to_commit cex4Commits x = none)) ∧
    (SortKey.AuthorDate.is_descending = true →
      keyLe cex4Commits SortKey.AuthorDate wit8ItemPresent wit8ItemAbsent = true ∧
      keyLe cex4Commits SortKey.AuthorDate wit8ItemAbsent wit8ItemPresent = false ∧
      ∀ items : List RefListItem,
        (insertionSort (keyLe cex4Commits SortKey.AuthorDate) items).Pairwise
          (fun x y => to_commit cex4Commits x = none →
            to_commit cex4Commits y = none))) :=
  ⟨by decide, by decide, by decide,
    commit_dependent_absent_ordering cex4Commits SortKey.AuthorDate (by decide)
      wit8ItemAbsent wit8ItemPresent (by decide) (by decide)⟩

/-! ## Arrange: association-list lookup lemmas -/

/-- A lookup succeeds exactly when the key occurs in the list. -/
theorem lookup_isSome_iff_mem {β : Type} (l : List (CommitId × β)) (k : CommitId) :
    ((l.lookup k)).isSome = true ↔ k ∈ l.map Prod.fst := by
  induction l with
  | nil => simp [List.lookup]
  | cons e t ih =>
    obtain ⟨a, b⟩ := e
    by_cases h : a = k
    · subst h
      simp [List.lookup]
    · have hb : (k == a) = false := by simpa using Ne.symm h
      simp only [List.lookup, hb, List.map_cons, List.mem_cons]
      rw [ih]
      simp [Ne.symm h]

/-- A key absent from the list looks up to `none`. -/
theorem lookup_eq_none_of_not_mem {β : Type} (l : List (CommitId × β)) (k : CommitId)
    (h : k ∉ l.map Prod.fst) : l.lookup k = none := by
  cases hl : l.lookup k with
  | none => rfl
  | some b =>
    exact absurd ((lookup_isSome_iff_mem l k).mp (by rw [hl]; rfl)) h

/-- Lookup distributes over append, preferring the left list. -/
theorem lookup_append {β : Type} (l1 l2 : List (CommitId × β)) (k : CommitId) :
    ((l1 ++ l2).lookup k) = ((l1.lookup k)).or (l2.lookup k) := by
  induction l1 with
  | nil => simp [List.lookup, Option.or]
  | cons e t ih =>
    obtain ⟨a, b⟩ := e
    by_cases h : a = k
    · subst h
      simp [List.lookup, Option.or]
    · have hb : (k == a) = false := by simpa using Ne.symm h
      simp [List.lookup, hb, ih]

/-! ## Arrange: list splitting lemmas -/

/-- A list with a member satisfying `p` splits at the first such member. -/
theorem find_first_split (p : CommitId → Bool) :
    ∀ l : List CommitId, (∃ x, x ∈ l ∧ p x = true) →
      ∃ l1 x l2, l = l1 ++ x :: l2 ∧ p x = true ∧ ∀ y ∈ l1, p y = false := by
  intro l
  induction l with
  | nil =>
    rintro ⟨x, hx, _⟩
    cases hx
  | cons a t ih =>
    intro hex
    cases hpa : p a with
    | false =>
      have hext : ∃ x, x ∈ t ∧ p x = true := by
        obtain ⟨x, hx, hpx⟩ := hex
        rcases List.mem_cons.mp hx with rfl | hx'
        · rw [hpa] at hpx; cases hpx
        · exact ⟨x, hx', hpx⟩
      obtain ⟨l1, x, l2, hsplit, hpx, hl1⟩ := ih hext
      refine ⟨a :: l1, x, l2, by simp [hsplit], hpx, ?_⟩
      intro y hy
      rcases List.mem_cons.mp hy with rfl | hy'
      · exact hpa
      · exact hl1 y hy'
    | true => exact ⟨[], a, t, rfl, hpa, by simp⟩

/-- Splitting a snoc at a cons: the marked element is inside the prefix or
is the appended element. -/
theorem snoc_eq_append_cons :
    ∀ (l l1 : List CommitId) (a x : CommitId) (l2 : List CommitId),
      l ++ [a] = l1 ++ x :: l2 →
      (∃ l2', l = l1 ++ x :: l2' ∧ l2 = l2' ++ [a]) ∨ (l1 = l ∧ x = a ∧ l2 = []) := by
  intro l l1
  induction l1 generalizing l with
  | nil =>
    intro a x l2 h
    cases l with
    | nil =>
      simp only [List.nil_append] at h
      injection h with h1 h2
      right
      exact ⟨rfl, h1.symm, h2.symm⟩
    | cons b t =>
      simp only [List.cons_append, List.nil_append] at h
      injection h with h1 h2
      left
      exact ⟨t, by simp [h1], h2.symm⟩
  | cons c t1 ih =>
    intro a x l2 h
    cases l with
    | nil =>
      simp only [List.nil_append, List.cons_append] at h
      injection h with h1 h2
      exact absurd h2.symm (by simp)
    | cons b t =>
      simp only [List.cons_append] at h
      injection h with h1 h2
      rcases ih t a x l2 h2 with ⟨l2', hl, hl2⟩ | ⟨ht, hx, hl2⟩
      · left
        exact ⟨l2', by simp [h1, hl], hl2⟩
      · right
        exact ⟨by simp [h1, ht], hx, hl2⟩

/-- In `l1 ++ x :: l2`, position `l1.length` holds `x` and the prefix of
that length is `l1`. -/
theorem append_cons_getD :
    ∀ (l1 : List CommitId) (x : CommitId) (l2 : List CommitId),
      (l1 ++ x :: l2).getD l1.length 0 = x ∧ (l1 ++ x :: l2).take l1.length = l1 := by
  intro l1
  induction l1 with
  | nil =>
    intro x l2
    exact ⟨rfl, rfl⟩
  | cons a t ih =>
    intro x l2
    obtain ⟨h1, h2⟩ := ih x l2
    constructor
    · simpa using h1
    · simp only [List.cons_append, List.length_cons, List.take_succ_cons]
      rw [h2]

/-- A bounded, index-based check suffices for `IsForwardTopo`. -/
theorem isForwardTopo_of_index (self : ArrangeState) (ord : List CommitId)
    (hperm : ord.Perm (self.parents.map Prod.fst))
    (h : ∀ k, k < ord.length →
      ∀ p ∈ self.inSetParents (ord.getD k 0), p ∈ ord.take k) :
    IsForwardTopo self ord := by
  refine ⟨hperm, ?_⟩
  intro l1 x l2 hsplit p hp
  have hgd := append_cons_getD l1 x l2
  have hk : l1.length < ord.length := by
    rw [hsplit, List.length_append, List.length_cons]
    omega
  have h2 := h l1.length hk p (by rw [hsplit, hgd.1]; exact hp)
  rw [hsplit, hgd.2] at h2
  exact h2

/-- Kahn steps succeed on an acyclic in-set parent relation and emit a
forward topological order. -/
theorem topoGo_correct (self : ArrangeState) (ord0 : List CommitId)
    (htopo : IsForwardTopo self ord0)
    (hclosed : ∀ p id, p ∈ self.inSetParents id → p ∈ self.parents.map Prod.fst) :
    ∀ (fuel : Nat) (done pending : List CommitId),
      pending.length ≤ fuel →
      (done.reverse ++ pending).Perm (self.parents.map Prod.fst) →
      (∀ l1 x l2, done.reverse = l1 ++ x :: l2 →
        ∀ p ∈ self.inSetParents x, p ∈ l1) →
      ∃ ord, topoGo self.inSetParents fuel done pending = some ord ∧
        IsForwardTopo self ord := by
  intro fuel
  induction fuel with
  | zero =>
    intro done pending hlen hperm hinv
    have hpe : pending = [] := List.eq_nil_of_length_eq_zero (Nat.le_zero.mp hlen)
    subst hpe
    exact ⟨done.reverse, by simp [topoGo], by simpa using hperm, hinv⟩
  | succ fuel ih =>
    intro done pending hlen hperm hinv
    by_cases hpe : pending.isEmpty = true
    · have hpn : pending = [] := by simpa using hpe
      subst hpn
      exact ⟨done.reverse, by simp [topoGo], by simpa using hperm, hinv⟩
    · have hne : pending ≠ [] := fun hh => hpe (by simp [hh])
      obtain ⟨y, hy⟩ := List.exists_mem_of_ne_nil pending hne
      have hy0 : y ∈ ord0 := by
        have hyk : y ∈ self.parents.map Prod.fst :=
          hperm.subset (List.mem_append_right _ hy)
        exact (htopo.1.mem_iff).mpr hyk
      obtain ⟨l1, x, l2, hsplit0, hpx, hl1⟩ :=
        find_first_split (fun z => pending.contains z) ord0 ⟨y, hy0, by simpa using hy⟩
      have hxpend : x ∈ pending := by simpa using hpx
      have hready : ((self.inSetParents x).all (fun p => done.contains p)) = true := by
        rw [List.all_eq_true]
        intro p hp
        have hpl1 : p ∈ l1 := htopo.2 l1 x l2 hsplit0 p hp
        have hpnp : p ∉ pending := by simpa using hl1 p hpl1
        have hpk : p ∈ self.parents.map Prod.fst := hclosed p x hp
        have hpd : p ∈ done.reverse ++ pending := hperm.symm.subset hpk
        rcases List.mem_append.mp hpd with hh | hh
        · simpa using List.mem_reverse.mp hh
        · exact absurd hh hpnp
      have hfs : (pending.find?
          (fun id => ((self.inSetParents id).all (fun p => done.contains p)))).isSome :=
        List.find?_isSome.mpr ⟨x, hxpend, hready⟩
      obtain ⟨id, hid⟩ := Option.isSome_iff_exists.mp hfs
      have hidmem : id ∈ pending := List.mem_of_find?_eq_some hid
      have hidready := List.find?_some hid
      have hlen' : (pending.erase id).length ≤ fuel := by
        have := List.length_erase_of_mem hidmem
        omega
      have hperm' : ((id :: done).reverse ++ pending.erase id).Perm
          (self.parents.map Prod.fst) := by
        have h1 : (id :: done).reverse ++ pending.erase id
            = done.reverse ++ (id :: pending.erase id) := by
          simp
        rw [h1]
        exact (List.Perm.append_left done.reverse
          (List.perm_cons_erase hidmem).symm).trans hperm
      have hinv' : ∀ m1 z m2, (id :: done).reverse = m1 ++ z :: m2 →
          ∀ p ∈ self.inSetParents z, p ∈ m1 := by
        intro m1 z m2 hsp p hp
        rw [List.reverse_cons] at hsp
        rcases snoc_eq_append_cons done.reverse m1 id z m2 hsp with
          ⟨m2', hdr, _⟩ | ⟨hm1, hz, _⟩
        · exact hinv m1 z m2' hdr p hp
        · subst hz
          subst hm1
          have hcp := List.all_eq_true.mp hidready p hp
          rw [List.mem_reverse]
          simpa using hcp
      obtain ⟨ord, hord, htopoord⟩ := ih (id :: done) (pending.erase id) hlen' hperm' hinv'
      refine ⟨ord, ?_, htopoord⟩
      simp only [topoGo]
      rw [if_neg hpe, hid]
      exact hord

/-! ## Arrange: rewrite-loop lemmas -/

/-- Unfolding equation of `applyLoop` at a cons, with the parent
translation inlined. -/
theorem applyLoop_cons (self : ArrangeState) (id : CommitId) (rest : List CommitId)
    (rewritten : List (CommitId × Commit)) (repo : MutRepo) :
    applyLoop self (id :: rest) rewritten repo =
      match (self.commits.lookup id).or (self.external_children.lookup id) with
      | none => none
      | some old_commit =>
        if repo.new_parents ((self.parents.lookup id).getD []) ≠ old_commit.parent_ids then
          applyLoop self rest
            (rewritten ++ [(id, ⟨repo.next_id,
              repo.new_parents ((self.parents.lookup id).getD []),
              old_commit.change_id⟩)])
            ⟨repo.mapping ++ [(id, repo.next_id)], repo.next_id + 1⟩
        else applyLoop self rest rewritten repo := rfl

/-- `applyLoop` over an appended order is the composition of the runs,
threading the rewritten map and the repo state. -/
theorem applyLoop_append (self : ArrangeState) :
    ∀ (l1 l2 : List CommitId) (rewritten : List (CommitId × Commit)) (repo : MutRepo),
      applyLoop self (l1 ++ l2) rewritten repo =
        (applyLoop self l1 rewritten repo).bind
          (fun mid => applyLoop self l2 mid.1 mid.2) := by
  intro l1
  induction l1 with
  | nil =>
    intro l2 rewritten repo
    rfl
  | cons id t ih =>
    intro l2 rewritten repo
    rw [List.cons_append, applyLoop_cons, applyLoop_cons]
    cases hlk : (self.commits.lookup id).or (self.external_children.lookup id) with
    | none => rfl
    | some old_commit =>
      dsimp only
      by_cases hch :
          repo.new_parents ((self.parents.lookup id).getD []) ≠ old_commit.parent_ids
      · rw [if_pos hch, if_pos hch]
        exact ih l2 _ _
      · rw [if_neg hch, if_neg hch]
        exact ih l2 _ _

/-- A successful `applyLoop` run appends a block of new entries whose keys
form a subsequence of the visited order, and extends the rewrite map by
exactly the (old id, new id) pair of each new entry. -/
theorem applyLoop_delta (self : ArrangeState) :
    ∀ (ord : List CommitId) (rewritten : List (CommitId × Commit)) (repo : MutRepo)
      (res : List (CommitId × Commit) × MutRepo),
      applyLoop self ord rewritten repo = some res →
      ∃ delta, res.1 = rewritten ++ delta ∧
        (delta.map Prod.fst).Sublist ord ∧
        res.2.mapping = repo.mapping ++ delta.map (fun e => (e.1, e.2.id)) := by
  intro ord
  induction ord with
  | nil =>
    intro rewritten repo res h
    obtain rfl : (rewritten, repo) = res := Option.some.inj h
    exact ⟨[], by simp, List.nil_sublist _, by simp⟩
  | cons id t ih =>
    intro rewritten repo res h
    rw [applyLoop_cons] at h
    cases hlk : (self.commits.lookup id).or (self.external_children.lookup id) with
    | none =>
      rw [hlk] at h
      cases h
    | some old_commit =>
      rw [hlk] at h
      dsimp only at h
      by_cases hch :
          repo.new_parents ((self.parents.lookup id).getD []) ≠ old_commit.parent_ids
      · rw [if_pos hch] at h
        obtain ⟨delta, h1, h2, h3⟩ := ih _ _ _ h
        refine ⟨(id, ⟨repo.next_id,
            repo.new_parents ((self.parents.lookup id).getD []),
            old_commit.change_id⟩) :: delta, ?_, ?_, ?_⟩
        · rw [h1]
          simp
        · simp only [List.map_cons]
          exact h2.cons₂ id
        · rw [h3]
          simp
      · rw [if_neg hch] at h
        obtain ⟨delta, h1, h2, h3⟩ := ih _ _ _ h
        exact ⟨delta, h1, h2.cons id, h3⟩

/-- `applyLoop` succeeds when every visited id is in `commits` or
`external_children`. -/
theorem applyLoop_isSome (self : ArrangeState) :
    ∀ (ord : List CommitId) (rewritten : List (CommitId × Commit)) (repo : MutRepo),
      (∀ id ∈ ord,
        ((self.commits.lookup id).or (self.external_children.lookup id)).isSome = true) →
      (applyLoop self ord rewritten repo).isSome = true := by
  intro ord
  induction ord with
  | nil =>
    intro rewritten repo _
    rfl
  | cons id t ih =>
    intro rewritten repo hall
    rw [applyLoop_cons]
    cases hlk : (self.commits.lookup id).or (self.external_children.lookup id) with
    | none =>
      have := hall id (List.mem_cons_self id t)
      rw [hlk] at this
      cases this
    | some old_commit =>
      dsimp only
      by_cases hch :
          repo.new_parents ((self.parents.lookup id).getD []) ≠ old_commit.parent_ids
      · rw [if_pos hch]
        exact ih _ _ (fun z hz => hall z (List.mem_cons_of_mem _ hz))
      · rw [if_neg hch]
        exact ih _ _ (fun z hz => hall z (List.mem_cons_of_mem _ hz))

/-- **C2.** For every well-formed arrange state whose edited in-set parent
relation is acyclic, `apply_changes` succeeds: it visits the keys of the
edited parent map — the commits of `commits` and `external_children` — in
a forward topological order `ord` of the in-set edited parents.  The
returned map has distinct keys drawn from `ord`, and at each visited
commit `x` (with the loop state `mid` reached after the preceding
commits, whose rewrite map records exactly the replacements written so
far) the commit is rewritten — with the edited parents translated through
the rewrite map and its old change id — precisely when the translated
parents differ from its old parents, and is absent from the returned map
when they are equal. -/
theorem arrange_apply_changes_topological (self : ArrangeState) (n0 : CommitId)
    (hwf : self.WF) (hacyclic : self.Acyclic) :
    ∃ ord res,
      topo_order_forward (self.parents.map Prod.fst) self.inSetParents = some ord ∧
      IsForwardTopo self ord ∧
      self.apply_changes ⟨[], n0⟩ = some res ∧
      (res.1.map Prod.fst).Nodup ∧
      (∀ e ∈ res.1, e.1 ∈ ord) ∧
      (∀ l1 x l2, ord = l1 ++ x :: l2 →
        ∃ mid, applyLoop self l1 [] ⟨[], n0⟩ = some mid ∧
          mid.2.mapping = mid.1.map (fun e => (e.1, e.2.id)) ∧
          ∃ old_commit,
            (self.commits.lookup x).or (self.external_children.lookup x)
              = some old_commit ∧
            (mid.2.new_parents ((self.parents.lookup x).getD [])
                ≠ old_commit.parent_ids →
              res.1.lookup x = some ⟨mid.2.next_id,
                mid.2.new_parents ((self.parents.lookup x).getD []),
                old_commit.change_id⟩) ∧
            (mid.2.new_parents ((self.parents.lookup x).getD [])
                = old_commit.parent_ids →
              res.1.lookup x = none)) := by
  obtain ⟨ord0, htopo0⟩ := hacyclic
  obtain ⟨hnd, hall, hck⟩ := hwf
  have hclosed : ∀ p id, p ∈ self.inSetParents id → p ∈ self.parents.map Prod.fst := by
    intro p id hp
    have hps : ((self.commits.lookup p)).isSome = true := by
      have hf := List.mem_filter.mp hp
      simpa using hf.2
    have hmem : p ∈ self.commits.map Prod.fst := (lookup_isSome_iff_mem _ _).mp hps
    obtain ⟨e, he, hpe⟩ := List.mem_map.mp hmem
    rw [← hpe]
    exact hck e he
  obtain ⟨ord, hord, htopo⟩ := topoGo_correct self ord0 htopo0 hclosed
    (self.parents.map Prod.fst).length [] (self.parents.map Prod.fst)
    (Nat.le_refl _) (by simp) (by
      intro l1 x l2 hh p hp
      rw [List.reverse_nil] at hh
      rcases List.append_eq_nil.mp hh.symm with ⟨_, h3⟩
      exact absurd h3 (List.cons_ne_nil x l2))
  have htof : topo_order_forward (self.parents.map Prod.fst) self.inSetParents
      = some ord := hord
  have hperm : ord.Perm (self.parents.map Prod.fst) := htopo.1
  have hallord : ∀ id ∈ ord,
      ((self.commits.lookup id).or (self.external_children.lookup id)).isSome = true :=
    fun id hid => hall id (hperm.subset hid)
  have hsome := applyLoop_isSome self ord [] ⟨[], n0⟩ hallord
  obtain ⟨res, hres⟩ := Option.isSome_iff_exists.mp hsome
  have hac : self.apply_changes ⟨[], n0⟩ = some res := by
    show (topo_order_forward (self.parents.map Prod.fst) self.inSetParents).bind
      (fun order => applyLoop self order [] ⟨[], n0⟩) = some res
    rw [htof]
    exact hres
  obtain ⟨delta, hd1, hd2, _⟩ := applyLoop_delta self ord [] ⟨[], n0⟩ res hres
  have hndord : ord.Nodup := hperm.nodup_iff.mpr hnd
  have hnodup : (res.1.map Prod.fst).Nodup := by
    rw [hd1]
    simp only [List.nil_append]
    exact hndord.sublist hd2
  have hkeys : ∀ e ∈ res.1, e.1 ∈ ord := by
    intro e he
    rw [hd1] at he
    simp only [List.nil_append] at he
    exact hd2.subset (List.mem_map_of_mem Prod.fst he)
  refine ⟨ord, res, htof, htopo, hac, hnodup, hkeys, ?_⟩
  intro l1 x l2 hsplit
  have hmid_some : (applyLoop self l1 [] ⟨[], n0⟩).isSome = true :=
    applyLoop_isSome self l1 [] _ (fun id hid =>
      hallord id (by rw [hsplit]; exact List.mem_append_left _ hid))
  obtain ⟨mid, hmid⟩ := Option.isSome_iff_exists.mp hmid_some
  obtain ⟨d1, hm1, hm2, hm3⟩ := applyLoop_delta self l1 [] ⟨[], n0⟩ mid hmid
  have hmapchar : mid.2.mapping = mid.1.map (fun e => (e.1, e.2.id)) := by
    rw [hm3, hm1]
    simp
  have hdecomp0 : applyLoop self (l1 ++ x :: l2) [] ⟨[], n0⟩ = some res := by
    rw [← hsplit]
    exact hres
  rw [applyLoop_append, hmid] at hdecomp0
  simp only [Option.some_bind] at hdecomp0
  rw [applyLoop_cons] at hdecomp0
  have hx : x ∈ ord := by
    rw [hsplit]
    exact List.mem_append_right _ (List.mem_cons_self x l2)
  obtain ⟨old_commit, hold⟩ := Option.isSome_iff_exists.mp (hallord x hx)
  rw [hold] at hdecomp0
  dsimp only at hdecomp0
  have hx1 : x ∉ l1 := by
    have hx1' := hndord
    rw [hsplit] at hx1'
    have hdis := (List.nodup_append.mp hx1').2.2
    intro hmem
    exact hdis hmem (List.mem_cons_self x l2)
  have hx2 : x ∉ l2 := by
    have hx2' := hndord
    rw [hsplit] at hx2'
    exact (List.nodup_cons.mp (List.nodup_append.mp hx2').2.1).1
  have hxd1 : mid.1.lookup x = none := by
    apply lookup_eq_none_of_not_mem
    rw [hm1]
    simp only [List.nil_append]
    intro hmem
    exact hx1 (hm2.subset hmem)
  refine ⟨mid, hmid, hmapchar, old_commit, hold, ?_, ?_⟩
  · intro hne
    rw [if_pos hne] at hdecomp0
    obtain ⟨d2, hr1, hr2, _⟩ := applyLoop_delta self l2 _ _ res hdecomp0
    rw [hr1, lookup_append, lookup_append, hxd1]
    simp [List.lookup, Option.or]
  · intro heq
    rw [if_neg (fun hc => hc heq)] at hdecomp0
    obtain ⟨d2, hr1, hr2, _⟩ := applyLoop_delta self l2 _ _ res hdecomp0
    have hxd2 : d2.lookup x = none := by
      apply lookup_eq_none_of_not_mem
      intro hmem
      exact hx2 (hr2.subset hmem)
    rw [hr1, lookup_append, hxd1, hxd2]
    rfl

/-- Witness for claim C2 at a concrete input: detaching commit `2` from `1`
rewrites `2` and its external child `3` (whose stored parent `2` is
translated to the replacement `50`), and leaves the untouched commit `1`
out of the returned map. -/
theorem claim2_witness :
    wit2State.WF ∧ wit2State.Acyclic ∧
    (wit2State.apply_changes ⟨[], 50⟩).isSome = true ∧
    wit2State.apply_changes ⟨[], 50⟩ =
      some ([(2, ⟨50, [], 101⟩), (3, ⟨51, [50], 102⟩)],
        ⟨[(2, 50), (3, 51)], 52⟩) := by
  have hwf : wit2State.WF := by
    unfold ArrangeState.WF
    decide
  have hperm3 : ([1, 2, 3] : List CommitId).Perm (wit2State.parents.map Prod.fst) := by
    have hh : wit2State.parents.map Prod.fst = [1, 2, 3] := rfl
    rw [hh]
  have hacy : wit2State.Acyclic :=
    ⟨[1, 2, 3], isForwardTopo_of_index wit2State [1, 2, 3] hperm3 (by decide)⟩
  obtain ⟨ord, res, _, _, h3, _⟩ := arrange_apply_changes_topological wit2State 50 hwf hacy
  exact ⟨hwf, hacy, by rw [h3]; rfl, by decide⟩

/-! ## Bookmark advance: lemmas -/

/-- `find?` returns the marked element of a split whose prefix fails the
predicate. -/
theorem find?_eq_some_of_split {α : Type} (p : α → Bool) :
    ∀ (l1 : List α) (x : α) (l2 : List α),
      p x = true → (∀ y ∈ l1, p y = false) →
      ((l1 ++ x :: l2).find? p) = some x := by
  intro l1
  induction l1 with
  | nil =>
    intro x l2 hx _
    rw [List.nil_append]
    exact List.find?_cons_of_pos _ hx
  | cons a t ih =>
    intro x l2 hx hl1
    rw [List.cons_append, List.find?_cons_of_neg]
    · exact ih x l2 hx (fun y hy => hl1 y (List.mem_cons_of_mem a hy))
    · simp [hl1 a (List.mem_cons_self a t)]

/-- **C5.** Bookmark advance with fast-forward enforcement: after dropping
candidates already at the target, if the remaining candidates in order
begin with fast-forwards followed by a failing one, the command returns a
user error naming that first failing bookmark, with the view unchanged and
no operation appended; if every remaining candidate is a fast-forward (and
at least one remains), every one of them is moved to the target and exactly
one operation is appended. -/
theorem bookmark_advance_fast_forward_guard (g : RepoGraph) (view : View)
    (bookmarks : List (BookmarkName × RefTarget)) (T : CommitId) :
    (∀ l1 e l2,
      bookmarks.filter (fun b => !(b.2.as_normal == some T)) = l1 ++ e :: l2 →
      is_fast_forward g e.2 T = false →
      (∀ b ∈ l1, is_fast_forward g b.2 T = true) →
      cmd_bookmark_advance g view bookmarks T
        = (view, 0, AdvanceOutcome.user_error e.1)) ∧
    (∀ matched, bookmarks.filter (fun b => !(b.2.as_normal == some T)) = matched →
      matched ≠ [] →
      (∀ b ∈ matched, is_fast_forward g b.2 T = true) →
      cmd_bookmark_advance g view bookmarks T
        = (matched.foldl
            (fun v b => v.set_local_bookmark_target b.1 (RefTarget.normal T)) view,
           1, AdvanceOutcome.advanced matched.length)) := by
  constructor
  · intro l1 e l2 hsplit hff hl1
    show (if (bookmarks.filter (fun b => !(b.2.as_normal == some T))).isEmpty then _
      else _) = _
    rw [hsplit]
    rw [if_neg (by simp)]
    have hfind : ((l1 ++ e :: l2).find? (fun b => !(is_fast_forward g b.2 T)))
        = some e :=
      find?_eq_some_of_split _ l1 e l2 (by simp [hff]) (fun y hy => by simp [hl1 y hy])
    rw [hfind]
  · intro matched hsplit hne hall
    show (if (bookmarks.filter (fun b => !(b.2.as_normal == some T))).isEmpty then _
      else _) = _
    rw [hsplit]
    rw [if_neg (by simpa using hne)]
    have hfind : (matched.find? (fun b => !(is_fast_forward g b.2 T))) = none := by
      rw [List.find?_eq_none]
      intro b hb
      simp [hall b hb]
    rw [hfind]

/-- Witness for claim C5 at concrete inputs: advancing `5` (behind the
target) with a no-op candidate `6` moves `5` in one operation, while a
candidate pointing sideways (`7` at unrelated commit `20`) aborts with its
name before anything changes. -/
theorem claim5_witness :
    cmd_bookmark_advance wit5Graph wit5View wit5BookmarksOk 10
      = (⟨[(5, RefTarget.normal 10), (6, RefTarget.normal 10),
          (7, RefTarget.normal 20)]⟩, 1, AdvanceOutcome.advanced 1) ∧
    cmd_bookmark_advance wit5Graph wit5View wit5BookmarksBad 10
      = (wit5View, 0, AdvanceOutcome.user_error 7) := by
  constructor
  · have h := (bookmark_advance_fast_forward_guard wit5Graph wit5View wit5BookmarksOk 10).2
      [(5, RefTarget.normal 1)] (by decide) (by decide) (by decide)
    rw [h]
    decide
  · exact (bookmark_advance_fast_forward_guard wit5Graph wit5View wit5BookmarksBad 10).1
      [(5, RefTarget.normal 1)] (7, RefTarget.normal 20) [] (by decide) (by decide)
      (by decide)

/-! ## Default working-copy store: the C9 divergence -/

/-- **C9.** The claim fails on the source: `needs_new` only tests whether
the store is empty, so a store that already holds one slot (here for tree
`t1`) answers a request for a commit with a different tree (`t2`) by
returning the existing `t1` slot unchanged — the result is not one slot
per requested commit, no slot for `t2` is created or returned, and the
store is left without any slot keyed by the requested tree. -/
theorem claim9_code_bug :
    cex9Store.get_or_create_working_copies cex9Request = (cex9Store, [cex9Slot]) ∧
    (∀ slot ∈ (cex9Store.get_or_create_working_copies cex9Request).2,
      slot.working_copy_path
        ≠ ((cex9Store.stored_paths.join "t2").join "working_copy")) ∧
    ((cex9Store.get_or_create_working_copies cex9Request).2.length
      ≠ cex9Request.length ∨
     ∃ slot ∈ (cex9Store.get_or_create_working_copies cex9Request).2,
       slot.working_copy_path
         ≠ ((cex9Store.stored_paths.join "t2").join "working_copy")) := by
  refine ⟨rfl, ?_, ?_⟩
  · decide
  · right
    exact ⟨cex9Slot, by decide, by decide⟩

/-! ## Secure config: lookup and filesystem lemmas -/

theorem assocLookup_upsert_self {κ β : Type} [DecidableEq κ]
    (l : List (κ × β)) (k : κ) (v : β) :
    assocLookup (upsert l k v) k = some v := by
  induction l with
  | nil => simp [upsert, assocLookup]
  | cons e t ih =>
    obtain ⟨a, b⟩ := e
    by_cases h : a = k
    · subst h
      simp [upsert, assocLookup]
    · simp [upsert, assocLookup, h, ih]

theorem assocLookup_upsert_ne {κ β : Type} [DecidableEq κ]
    (l : List (κ × β)) (k k' : κ) (v : β) (h : k' ≠ k) :
    assocLookup (upsert l k v) k' = assocLookup l k' := by
  induction l with
  | nil => simp [upsert, assocLookup, Ne.symm h]
  | cons e t ih =>
    obtain ⟨a, b⟩ := e
    by_cases ha : a = k
    · subst ha
      simp [upsert, assocLookup, Ne.symm h]
    · simp [upsert, assocLookup, ha, ih]

theorem mkdirAll_files (fs : Fs) (p : PathBuf) : (fs.mkdirAll p).files = fs.files := by
  unfold Fs.mkdirAll
  split <;> rfl

theorem mkdirAll_canon (fs : Fs) (p : PathBuf) : (fs.mkdirAll p).canon = fs.canon := by
  unfold Fs.mkdirAll
  split <;> rfl

theorem writeFile_files (fs : Fs) (p : PathBuf) (d : FileData) :
    (fs.writeFile p d).files = upsert fs.files (fs.canon p) d := rfl

theorem writeFile_canon (fs : Fs) (p : PathBuf) (d : FileData) :
    (fs.writeFile p d).canon = fs.canon := rfl

theorem readString_ok_iff (fs : Fs) (p : PathBuf) (s : String) :
    fs.readString p = Except.ok s ↔ fs.lookupFile p = some (FileData.text s) := by
  unfold Fs.readString
  cases hl : fs.lookupFile p with
  | none => simp
  | some d => cases d <;> simp

theorem readString_notFound_iff (fs : Fs) (p : PathBuf) :
    fs.readString p = Except.error ReadErr.notFound ↔ fs.lookupFile p = none := by
  unfold Fs.readString
  cases hl : fs.lookupFile p with
  | none => simp
  | some d => cases d <;> simp

/-- **C3.** `handle_metadata_path` on a recorded path that differs from the
current repo path and still exists as a directory: it probes with a temp
file in the current repo.  If the temp file does not appear under the
recorded path, the repo is treated as copied — a new config-id is drawn,
`config.toml` is copied into the new per-id directory (with metadata
recording the current repo), the repo's config-id file is atomically
rewritten to the new id, and exactly one copy warning is returned.  If the
temp file does appear (aliased directories), the existing config file is
returned with no warnings and the filesystem contents unchanged. -/
theorem handle_metadata_path_copy_detection (self : SecureConfig) (rng : Rng)
    (root_config_dir config_dir : PathBuf) (metadata : ConfigMetadata) (fs : Fs)
    (d : PathBuf)
    (hgot : metadata.path = some d)
    (hne : d ≠ self.repo_dir)
    (hdir : fs.isDir d = true)
    (htmp : fs.tmp_ok = true) :
    ((Fs.lookupFile { fs with
        files := upsert fs.files (fs.canon (self.repo_dir.join (tmpName fs.next_tmp)))
          (FileData.text ""),
        next_tmp := fs.next_tmp + 1 } (d.join (tmpName fs.next_tmp))).isSome = false →
      ∀ content, fs.readString (config_dir.join CONFIG_FILE) = Except.ok content →
      fs.canon ((root_config_dir.join (generate_config_id rng).1).join CONFIG_FILE)
          ≠ fs.canon (self.repo_dir.join self.config_id_name) →
      fs.canon ((root_config_dir.join (generate_config_id rng).1).join METADATA_FILE)
          ≠ fs.canon (self.repo_dir.join self.config_id_name) →
      fs.canon ((root_config_dir.join (generate_config_id rng).1).join METADATA_FILE)
          ≠ fs.canon ((root_config_dir.join (generate_config_id rng).1).join CONFIG_FILE) →
      ∃ fs',
        self.handle_metadata_path rng root_config_dir config_dir metadata fs
          = Except.ok
              (⟨some ((root_config_dir.join (generate_config_id rng).1).join CONFIG_FILE),
                ⟨some self.repo_dir⟩, [copyWarning d self.repo_dir]⟩,
               fs', (generate_config_id rng).2) ∧
        fs'.lookupFile ((root_config_dir.join (generate_config_id rng).1).join CONFIG_FILE)
          = some (FileData.text content) ∧
        fs'.lookupFile (self.repo_dir.join self.config_id_name)
          = some (FileData.text (generate_config_id rng).1) ∧
        fs'.lookupFile ((root_config_dir.join (generate_config_id rng).1).join METADATA_FILE)
          = some (FileData.meta ⟨some self.repo_dir⟩)) ∧
    ((Fs.lookupFile { fs with
        files := upsert fs.files (fs.canon (self.repo_dir.join (tmpName fs.next_tmp)))
          (FileData.text ""),
        next_tmp := fs.next_tmp + 1 } (d.join (tmpName fs.next_tmp))).isSome = true →
      self.handle_metadata_path rng root_config_dir config_dir metadata fs
        = Except.ok (⟨some (config_dir.join CONFIG_FILE), metadata, []⟩,
            { fs with next_tmp := fs.next_tmp + 1 }, rng)) := by
  constructor
  · intro hprobe content hread hk1 hk2 hk3
    refine ⟨(self.generate_config root_config_dir (generate_config_id rng).1
      (some content) ⟨some self.repo_dir⟩ { fs with next_tmp := fs.next_tmp + 1 }).1,
      ?_, ?_, ?_, ?_⟩
    · rw [htmp] at hprobe
      simp only [SecureConfig.handle_metadata_path, hgot, hdir, htmp, hread,
        Option.some.injEq, if_true]
      rw [if_neg hne]
      rw [if_neg (by simp [hprobe])]
      rfl
    · simp only [SecureConfig.generate_config, Fs.lookupFile, writeFile_files,
        writeFile_canon, mkdirAll_files, mkdirAll_canon, update_metadata]
      rw [assocLookup_upsert_ne _ _ _ _ hk1, assocLookup_upsert_self]
    · simp only [SecureConfig.generate_config, Fs.lookupFile, writeFile_files,
        writeFile_canon, mkdirAll_files, mkdirAll_canon, update_metadata]
      rw [assocLookup_upsert_self]
    · simp only [SecureConfig.generate_config, Fs.lookupFile, writeFile_files,
        writeFile_canon, mkdirAll_files, mkdirAll_canon, update_metadata]
      rw [assocLookup_upsert_ne _ _ _ _ hk2, assocLookup_upsert_ne _ _ _ _ hk3,
        assocLookup_upsert_self]
  · intro hprobe
    rw [htmp] at hprobe
    simp only [SecureConfig.handle_metadata_path, hgot, hdir, htmp,
      Option.some.injEq, if_true]
    rw [if_neg hne]
    rw [if_pos hprobe]

/-- Witness for claim C3 at concrete inputs: a repo copied from `old/` to
`new/` gets a fresh config-id, a copied `config.toml`, a rewritten
`config-id` file and one copy warning; with `old/` aliased to `new/` the
existing config file is returned unchanged with no warning. -/
theorem claim3_witness :
    (∃ fs',
      wit3Config.handle_metadata_path ["ffeeddccbbaa99887766"] ["cfg"]
          ["cfg", "aabbccddeeff00112233"] ⟨some ["old"]⟩ wit3Fs
        = Except.ok (⟨some ["cfg", "ffeeddccbbaa99887766", "config.toml"],
            ⟨some ["new"]⟩, [copyWarning ["old"] ["new"]]⟩, fs', []) ∧
      fs'.lookupFile ["cfg", "ffeeddccbbaa99887766", "config.toml"]
        = some (FileData.text "conf") ∧
      fs'.lookupFile ["new", "config-id"]
        = some (FileData.text "ffeeddccbbaa99887766") ∧
      fs'.lookupFile ["cfg", "ffeeddccbbaa99887766", "metadata.binpb"]
        = some (FileData.meta ⟨some ["new"]⟩)) ∧
    wit3Config.handle_metadata_path [] ["cfg"] ["cfg", "aabbccddeeff00112233"]
        ⟨some ["old"]⟩ wit3FsAliased
      = Except.ok (⟨some ["cfg", "aabbccddeeff00112233", "config.toml"],
          ⟨some ["old"]⟩, []⟩, { wit3FsAliased with next_tmp := 1 }, []) := by
  constructor
  · obtain ⟨fs', h1, h2, h3, h4⟩ :=
      (handle_metadata_path_copy_detection wit3Config ["ffeeddccbbaa99887766"]
        ["cfg"] ["cfg", "aabbccddeeff00112233"] ⟨some ["old"]⟩ wit3Fs ["old"]
        rfl (by decide) (by decide) rfl).1
        (by decide) "conf" rfl (by decide) (by decide) (by decide)
    exact ⟨fs', h1, h2, h3, h4⟩
  · exact (handle_metadata_path_copy_detection wit3Config [] ["cfg"]
      ["cfg", "aabbccddeeff00112233"] ⟨some ["old"]⟩ wit3FsAliased ["old"]
      rfl (by decide) (by decide) rfl).2 (by decide)

theorem readString_badData_iff (fs : Fs) (p : PathBuf) :
    fs.readString p = Except.error ReadErr.badData ↔
      ∃ m, fs.lookupFile p = some (FileData.meta m) := by
  unfold Fs.readString
  cases hl : fs.lookupFile p with
  | none => simp
  | some d => cases d <;> simp

/-- `handle_metadata_path` never reports an invalid config id. -/
theorem handle_metadata_path_ne_badConfigId (self : SecureConfig) (rng : Rng)
    (root_config_dir config_dir : PathBuf) (metadata : ConfigMetadata) (fs : Fs) :
    self.handle_metadata_path rng root_config_dir config_dir metadata fs
      ≠ Except.error SecureConfigError.badConfigIdError := by
  intro h
  simp only [SecureConfig.handle_metadata_path] at h
  by_cases h1 : metadata.path = some self.repo_dir
  · rw [if_pos h1] at h
    exact Except.noConfusion h
  · rw [if_neg h1] at h
    cases hmp : metadata.path with
    | none =>
      rw [hmp] at h
      exact Except.noConfusion h
    | some d =>
      rw [hmp] at h
      dsimp only at h
      by_cases h2 : fs.isDir d = true
      · rw [if_pos h2] at h
        by_cases h3 : fs.tmp_ok = true
        · rw [if_pos h3] at h
          by_cases h4 : (Fs.lookupFile { fs with
              files := upsert fs.files
                (fs.canon (self.repo_dir.join (tmpName fs.next_tmp)))
                (FileData.text ""),
              next_tmp := fs.next_tmp + 1 } (d.join (tmpName fs.next_tmp))).isSome
                = true
          · rw [if_pos h4] at h
            exact Except.noConfusion h
          · rw [if_neg h4] at h
            cases hr : fs.readString (config_dir.join CONFIG_FILE) with
            | ok c =>
              rw [hr] at h
              exact Except.noConfusion h
            | error e =>
              rw [hr] at h
              injection h with h5
              exact SecureConfigError.noConfusion h5
        · rw [if_neg h3] at h
          exact Except.noConfusion h
      · rw [if_neg h2] at h
        exact Except.noConfusion h

/-- `maybe_migrate_legacy_config` never reports an invalid config id. -/
theorem maybe_migrate_ne_badConfigId (self : SecureConfig) (rng : Rng)
    (root_config_dir : PathBuf) (fs : Fs) :
    self.maybe_migrate_legacy_config rng root_config_dir fs
      ≠ Except.error SecureConfigError.badConfigIdError := by
  intro h
  simp only [SecureConfig.maybe_migrate_legacy_config] at h
  cases hr : fs.readString (self.repo_dir.join self.legacy_config_name) with
  | ok c =>
    rw [hr] at h
    exact Except.noConfusion h
  | error e =>
    rw [hr] at h
    cases e with
    | notFound => exact Except.noConfusion h
    | badData =>
      injection h with h2
      exact SecureConfigError.noConfusion h2

/-- The cache-miss body errors with `BadConfigIdError` exactly when the
config-id file holds an invalid text. -/
theorem uncached_bad_config_id_iff (self : SecureConfig) (rng : Rng)
    (root_config_dir : PathBuf) (fs : Fs) :
    self.maybe_load_config_uncached rng root_config_dir fs
        = Except.error SecureConfigError.badConfigIdError ↔
      ∃ s, fs.lookupFile (self.repo_dir.join self.config_id_name)
          = some (FileData.text s) ∧ validConfigId s = false := by
  simp only [SecureConfig.maybe_load_config_uncached]
  cases hr : fs.readString (self.repo_dir.join self.config_id_name) with
  | ok s =>
    have hl := (readString_ok_iff fs _ s).mp hr
    by_cases hv : validConfigId s = true
    · simp only [hv, Bool.not_true, Bool.false_eq_true, if_false]
      constructor
      · intro h
        exfalso
        cases hm : fs.readMeta ((root_config_dir.join s).join METADATA_FILE) with
        | ok m =>
          rw [hm] at h
          exact handle_metadata_path_ne_badConfigId self rng root_config_dir
            (root_config_dir.join s) m fs h
        | error e =>
          rw [hm] at h
          cases e with
          | notFound => exact Except.noConfusion h
          | badData =>
            injection h with h2
            exact SecureConfigError.noConfusion h2
      · rintro ⟨s', hs', hv'⟩
        rw [hl] at hs'
        obtain rfl : s = s' := by simpa using hs'
        rw [hv] at hv'
        cases hv'
    · have hv2 : validConfigId s = false := Bool.eq_false_iff.mpr hv
      simp only [hv2, Bool.not_false, if_true]
      constructor
      · intro _
        exact ⟨s, hl, hv2⟩
      · intro _
        trivial
  | error e =>
    cases e with
    | notFound =>
      have hl := (readString_notFound_iff fs _).mp hr
      constructor
      · intro h
        exact absurd h (maybe_migrate_ne_badConfigId self rng root_config_dir fs)
      · rintro ⟨s, hs, _⟩
        rw [hl] at hs
        cases hs
    | badData =>
      constructor
      · intro h
        injection h with h2
        cases h2
      · rintro ⟨s, hs, _⟩
        obtain ⟨m, hm⟩ := (readString_badData_iff fs _).mp hr
        rw [hm] at hs
        cases hs

/-- **C6.** On a cache miss, `maybe_load_config` returns `BadConfigIdError`
exactly when the repo's config-id file exists (as text) and its contents
are not 20 bytes of ASCII hex digits; a missing config-id file never
produces this error and instead hands the call to the legacy-migration
path, whose outcome (with the cache filled on success) is the result. -/
theorem maybe_load_config_bad_config_id (self : SecureConfig) (rng : Rng)
    (root_config_dir : PathBuf) (fs : Fs) (hc : self.cache = none) :
    (self.maybe_load_config rng root_config_dir fs
        = Except.error SecureConfigError.badConfigIdError ↔
      ∃ s, fs.lookupFile (self.repo_dir.join self.config_id_name)
          = some (FileData.text s) ∧ validConfigId s = false) ∧
    (fs.lookupFile (self.repo_dir.join self.config_id_name) = none →
      self.maybe_load_config rng root_config_dir fs
        = match self.maybe_migrate_legacy_config rng root_config_dir fs with
          | Except.error e => Except.error e
          | Except.ok (loaded, fs', rng') =>
            Except.ok (loaded,
              { self with cache := some (loaded.config_file, loaded.metadata) },
              fs', rng')) := by
  have hlift : (self.maybe_load_config rng root_config_dir fs
      = Except.error SecureConfigError.badConfigIdError) ↔
      (self.maybe_load_config_uncached rng root_config_dir fs
        = Except.error SecureConfigError.badConfigIdError) := by
    unfold SecureConfig.maybe_load_config
    rw [hc]
    cases hu : self.maybe_load_config_uncached rng root_config_dir fs with
    | error e => simp
    | ok trip =>
      obtain ⟨l, f, r⟩ := trip
      simp
  constructor
  · exact hlift.trans (uncached_bad_config_id_iff self rng root_config_dir fs)
  · intro hnone
    have hr : fs.readString (self.repo_dir.join self.config_id_name)
        = Except.error ReadErr.notFound :=
      (readString_notFound_iff fs _).mpr hnone
    have hu : self.maybe_load_config_uncached rng root_config_dir fs
        = self.maybe_migrate_legacy_config rng root_config_dir fs := by
      simp only [SecureConfig.maybe_load_config_uncached, hr]
    unfold SecureConfig.maybe_load_config
    rw [hc, hu]

/-- Witness for claim C6 at concrete inputs: a three-byte config id errors
with `BadConfigIdError`; a missing config-id file (and no legacy config)
takes the migration path and returns no config file and no error. -/
theorem claim6_witness :
    wit3Config.maybe_load_config [] ["cfg"] wit6Fs
      = Except.error SecureConfigError.badConfigIdError ∧
    wit3Config.maybe_load_config [] ["cfg"] wit6FsEmpty
      = Except.ok (⟨none, ⟨none⟩, []⟩,
          { wit3Config with cache := some (none, ⟨none⟩) }, wit6FsEmpty, []) := by
  have h := maybe_load_config_bad_config_id wit3Config [] ["cfg"] wit6Fs rfl
  have h2 := maybe_load_config_bad_config_id wit3Config [] ["cfg"] wit6FsEmpty rfl
  constructor
  · exact h.1.mpr ⟨"xyz", rfl, by decide⟩
  · rw [h2.2 rfl]
    rfl

/-- A cache hit returns the cached file and metadata with no warnings and
touches nothing. -/
theorem maybe_load_config_cache_hit (self : SecureConfig) (rng : Rng)
    (root_config_dir : PathBuf) (fs : Fs) (cf : Option PathBuf)
    (md : ConfigMetadata) (h : self.cache = some (cf, md)) :
    self.maybe_load_config rng root_config_dir fs
      = Except.ok (⟨cf, md, []⟩, self, fs, rng) := by
  unfold SecureConfig.maybe_load_config
  rw [h]

/-- Every successful `maybe_load_config` leaves the cache holding exactly
the returned file and metadata. -/
theorem maybe_load_config_sets_cache (self : SecureConfig) (rng : Rng)
    (root_config_dir : PathBuf) (fs : Fs) (loaded : LoadedSecureConfig)
    (self' : SecureConfig) (fs' : Fs) (rng' : Rng)
    (h : self.maybe_load_config rng root_config_dir fs
      = Except.ok (loaded, self', fs', rng')) :
    self'.cache = some (loaded.config_file, loaded.metadata) := by
  unfold SecureConfig.maybe_load_config at h
  cases hc : self.cache with
  | some c =>
    rw [hc] at h
    injection h with h2
    simp only [Prod.mk.injEq] at h2
    obtain ⟨hl, hs, _, _⟩ := h2
    subst hl
    rw [← hs, hc]
  | none =>
    rw [hc] at h
    cases hu : self.maybe_load_config_uncached rng root_config_dir fs with
    | error e =>
      rw [hu] at h
      exact Except.noConfusion h
    | ok trip =>
      obtain ⟨l, f, r⟩ := trip
      rw [hu] at h
      injection h with h2
      simp only [Prod.mk.injEq] at h2
      obtain ⟨hl, hs, _, _⟩ := h2
      subst hl
      rw [← hs]

/-- Every successful `load_config` leaves the cache holding exactly the
returned file and metadata. -/
theorem load_config_sets_cache (self : SecureConfig) (rng : Rng)
    (root_config_dir : PathBuf) (fs : Fs) (loaded : LoadedSecureConfig)
    (self' : SecureConfig) (fs' : Fs) (rng' : Rng)
    (h : self.load_config rng root_config_dir fs
      = Except.ok (loaded, self', fs', rng')) :
    self'.cache = some (loaded.config_file, loaded.metadata) := by
  unfold SecureConfig.load_config at h
  cases hm : self.maybe_load_config rng root_config_dir fs with
  | error e =>
    rw [hm] at h
    exact Except.noConfusion h
  | ok trip =>
    obtain ⟨l, s2, f2, r2⟩ := trip
    rw [hm] at h
    dsimp only at h
    cases hcf : l.config_file with
    | some p =>
      rw [hcf] at h
      injection h with h2
      simp only [Prod.mk.injEq] at h2
      obtain ⟨hl, hs, _, _⟩ := h2
      subst hl
      rw [← hs]
      exact maybe_load_config_sets_cache self rng root_config_dir fs l s2 f2 r2 hm
    | none =>
      rw [hcf] at h
      injection h with h2
      simp only [Prod.mk.injEq] at h2
      obtain ⟨hl, hs, _, _⟩ := h2
      subst hl
      rw [← hs]

/-- **C10.** Warnings are reported at most once per instance: a cache hit
returns the cached file and metadata with an empty warnings list; every
successful `maybe_load_config` or `load_config` fills the cache with
exactly the returned file and metadata, so any later `maybe_load_config`
on the returned instance — whatever generator, root directory and
filesystem it is given — returns the same config file and metadata with no
warnings and no filesystem or instance change. -/
theorem secure_config_cache_single_warning (self : SecureConfig)
    (rng rng2 : Rng) (root_config_dir root2 : PathBuf) (fs fs2 : Fs) :
    (∀ cf md, self.cache = some (cf, md) →
      self.maybe_load_config rng root_config_dir fs
        = Except.ok (⟨cf, md, []⟩, self, fs, rng)) ∧
    (∀ loaded self' fs' rng',
      self.maybe_load_config rng root_config_dir fs
          = Except.ok (loaded, self', fs', rng') →
      self'.cache = some (loaded.config_file, loaded.metadata) ∧
      self'.maybe_load_config rng2 root2 fs2
        = Except.ok (⟨loaded.config_file, loaded.metadata, []⟩, self', fs2, rng2)) ∧
    (∀ loaded self' fs' rng',
      self.load_config rng root_config_dir fs
          = Except.ok (loaded, self', fs', rng') →
      self'.cache = some (loaded.config_file, loaded.metadata) ∧
      self'.maybe_load_config rng2 root2 fs2
        = Except.ok (⟨loaded.config_file, loaded.metadata, []⟩, self', fs2, rng2)) := by
  refine ⟨?_, ?_, ?_⟩
  · intro cf md h
    exact maybe_load_config_cache_hit self rng root_config_dir fs cf md h
  · intro loaded self' fs' rng' h
    have hcache :=
      maybe_load_config_sets_cache self rng root_config_dir fs loaded self' fs' rng' h
    exact ⟨hcache, maybe_load_config_cache_hit self' rng2 root2 fs2 _ _ hcache⟩
  · intro loaded self' fs' rng' h
    have hcache :=
      load_config_sets_cache self rng root_config_dir fs loaded self' fs' rng' h
    exact ⟨hcache, maybe_load_config_cache_hit self' rng2 root2 fs2 _ _ hcache⟩

/-- Witness for claim C10 at concrete inputs: the first load migrates a
legacy config and returns one warning; the call on the returned instance is
served from the cache with the same file and metadata and no warnings. -/
theorem claim10_witness :
    ∃ fs',
      wit3Config.maybe_load_config ["aa112233445566778899"] ["cfg"] wit10Fs
        = Except.ok (wit10Loaded, wit10Cached, fs', []) ∧
      wit10Loaded.warnings.length = 1 ∧
      wit10Cached.maybe_load_config [] [] wit10Fs
        = Except.ok (⟨wit10Loaded.config_file, wit10Loaded.metadata, []⟩,
            wit10Cached, wit10Fs, []) := by
  refine ⟨_, rfl, rfl, ?_⟩
  exact ((secure_config_cache_single_warning wit3Config ["aa112233445566778899"] []
    ["cfg"] [] wit10Fs wit10Fs).2.1 wit10Loaded wit10Cached _ [] rfl).2
